import Mathlib

/-!
Verification of the sampling and roster-binding engine of the
template-filler repository (`src/fetcher.py`), against its
natural-language specification.

The embedding is shallow: Python text primitives are modelled as
structural functions on `List Char`, `collections.Counter` as an
association list `List (String × Nat)`, the mutable fetcher objects as
explicit state records, the filesystem as a function
`String → Option String` (path to file text), and `np.random.choice`
as an oracle `pick : Finset String → String` that is assumed to return
a member of any non-empty set (the uniform random generator is opaque;
any draw it can make is covered by quantifying over the oracle).
Fallible operations return `Except String`.
-/

/-! ## Python string primitives (structural, kernel-evaluable) -/

/-- Splitting a character list at every occurrence of `c`, mirroring
Python `str.split(c)`: `""` gives `[""]`, separators at the ends give
empty segments. -/
def splitAux (c : Char) : List Char → List (List Char)
  | [] => [[]]
  | ch :: rest =>
    match splitAux c rest with
    | [] => [[]]
    | g :: gs => if ch = c then [] :: g :: gs else (ch :: g) :: gs

/-- Python `text.split('\n')`. -/
def pySplitLines (s : String) : List String :=
  (splitAux '\n' s.data).map String.mk

/-- Python `str.strip()`: drop leading and trailing whitespace. -/
def pyStrip (s : String) : String :=
  String.mk (((s.data.dropWhile Char.isWhitespace).reverse.dropWhile
      Char.isWhitespace).reverse)

/-- Python `str.lower()`. -/
def pyLower (s : String) : String := String.mk (s.data.map Char.toLower)

/-! ## collections.Counter as an association list

A Python `Counter` is a dict from phrase to use-count.  Keys are
pairwise distinct (an invariant of the dict, proved below for all
reachable counters); entries are kept in insertion order. -/

abbrev Counter := List (String × Nat)

/-- The keys of the counter dict. -/
def cKeys (c : Counter) : List String := c.map Prod.fst

/-- The stored use-counts, `counter.values()`. -/
def cValues (c : Counter) : List Nat := c.map Prod.snd

/-- Dict membership of a key. -/
def cHasKey (c : Counter) (k : String) : Bool := c.any (fun p => p.1 = k)

/-- Python `counter[k] += 1`: bump the entry if the key is present
(reading a missing key yields 0 and the assignment inserts it with 1). -/
def cIncr (c : Counter) (k : String) : Counter :=
  if cHasKey c k then c.map (fun p => if p.1 = k then (p.1, p.2 + 1) else p)
  else c ++ [(k, 1)]

/-- Truthiness of `list(counter.elements())`: some key has a positive
count. -/
def elemsNonempty (c : Counter) : Bool := c.any (fun p => 0 < p.2)

/-- Python `max(counter.values())` (0 on the empty dict, which the code
never reaches); also the count reported by `counter.most_common(n=1)`. -/
def maxVal (c : Counter) : Nat := (cValues c).foldr max 0

/-- Python `min(counter.values())` (taken as `maxVal` on the empty dict,
which the code never reaches). -/
def minVal (c : Counter) : Nat := (cValues c).foldr min (maxVal c)

/-- The saturated phrases: `{k for k, v in counter.items() if v == most_used_value}`
where `most_used_value` is the count of `counter.most_common(n=1)[0]`,
i.e. the maximal stored count. -/
def satKeys (c : Counter) : Finset String :=
  ((c.filter (fun p => p.2 = maxVal c)).map Prod.fst).toFinset

/-- Lookup of a key's count, 0 when absent (`Counter.__missing__`). -/
def cVal (c : Counter) (k : String) : Nat :=
  (((c.find? (fun p => p.1 = k)).map Prod.snd).getD 0)

/-- Sum of all stored counts. -/
def cTotal (c : Counter) : Nat := (cValues c).sum

/-! ## FlockFetcher -/

/-- Mutable state of a `FlockFetcher`: `self.cache` maps a file path to
the loaded phrase pool, `self.mutex_counters` is a
`defaultdict(Counter)` keyed by `(mutex, col, cls)`.  The fixed
`root_dir` is passed separately. -/
structure FlockState where
  cache : String → Option (Finset String)
  counters : String × String × String → Counter

/-- Fresh fetcher state: empty cache, all counters empty. -/
def initState : FlockState :=
  { cache := fun _ => none, counters := fun _ => [] }

/-- FlockFetcher.clear_cache: reset the pool cache and all counters. -/
def clearCacheF (_st : FlockState) : FlockState := initState

/-- The pool file path `os.path.join(root_dir, col, cls + ".txt")`. -/
def poolPath (root col cls : String) : String :=
  root ++ "/" ++ col ++ "/" ++ cls ++ ".txt"

/-- Loading a pool from raw file text:
`{poss.strip() for poss in text.split('\n') if len(poss.strip()) != 0}` —
the set of distinct non-empty stripped lines. -/
def poolOfText (t : String) : Finset String :=
  (((pySplitLines t).map pyStrip).filter (fun s => s ≠ "")).toFinset

/-- Lines 38-44 of fetcher.py: fetch the possibilities for `fpath` from
the cache, or read the file (error when absent, as `read_textfile` —
which is outside this repository's sources — fails with a
file-not-found error per the spec) and memoize the parsed pool. -/
def getPossibilities (fs : String → Option String) (st : FlockState)
    (fpath : String) : Except String (Finset String × FlockState) :=
  match st.cache fpath with
  | some poss => .ok (poss, st)
  | none =>
    match fs fpath with
    | none => .error ("FileNotFoundError: " ++ fpath)
    | some text =>
      let poss := poolOfText text
      .ok (poss, { st with cache := fun p => if p = fpath then some poss else st.cache p })

/-- Python truthiness of the `mutex` argument (`None` and `""` are falsy). -/
def mutexTruthy : Option String → Bool
  | none => false
  | some s => s ≠ ""

/-- `np.random.choice(list(s))`: returns the oracle's pick of the set,
raising ValueError on an empty set. -/
def npChoice (pick : Finset String → String) (s : Finset String) :
    Except String String :=
  if s = ∅ then .error "ValueError: a must be non-empty" else .ok (pick s)

/-- Lines 49-68 of fetcher.py: the mutex-constrained part of `sample`.
`m` is the (truthy) mutex string.  Mirrors, in order: the
`list(counter.elements())` test, the `assert max - min <= 1`, the
saturated-key set, the set difference, the fairness-drained fallback to
the full pool, the random choice and the counter increment. -/
def mutexBranch (pick : Finset String → String) (st1 : FlockState)
    (possibilities : Finset String) (m col cls : String) :
    Except String (String × FlockState) :=
  let mkey := (m, col, cls)
  let counter := st1.counters mkey
  match (if elemsNonempty counter then
           (if maxVal counter - minVal counter ≤ 1 then
              Except.ok (satKeys counter)
            else Except.error "AssertionError: max(counter.values()) - min(counter.values()) <= 1")
         else Except.ok (∅ : Finset String)) with
  | .error e => .error e
  | .ok mostUsedKeys =>
    let np0 := possibilities \ mostUsedKeys
    let newPoss := if np0 = ∅ then possibilities else np0
    match npChoice pick newPoss with
    | .error e => .error e
    | .ok choice =>
      .ok (choice,
           { st1 with
             counters := fun k => if k = mkey then cIncr counter choice else st1.counters k })

/-- FlockFetcher.sample (fetcher.py lines 37-68). -/
def sampleF (fs : String → Option String) (pick : Finset String → String)
    (root : String) (st : FlockState) (col cls : String)
    (mutex : Option String) : Except String (String × FlockState) :=
  match getPossibilities fs st (poolPath root col cls) with
  | .error e => .error e
  | .ok (possibilities, st1) =>
    if mutexTruthy mutex = false then
      match npChoice pick possibilities with
      | .error e => .error e
      | .ok c => .ok (c, st1)
    else
      mutexBranch pick st1 possibilities (mutex.getD "") col cls

/-- Validity of a choice oracle: on a non-empty set it picks a member. -/
def ValidPick (pick : Finset String → String) : Prop :=
  ∀ s : Finset String, s.Nonempty → pick s ∈ s

/-- The states of one `FlockFetcher` (fixed filesystem and root
directory) reachable by any sequence of `sample` and `clear_cache`
calls, each draw made with any valid choice oracle. -/
inductive ReachesF (fs : String → Option String) (root : String) :
    FlockState → Prop
  | init : ReachesF fs root initState
  | step (pick : Finset String → String) (st st' : FlockState)
      (r col cls : String) (mutex : Option String)
      (hpick : ValidPick pick) (hst : ReachesF fs root st)
      (hcall : sampleF fs pick root st col cls mutex = .ok (r, st')) :
      ReachesF fs root st'
  | clear (st : FlockState) (hst : ReachesF fs root st) :
      ReachesF fs root (clearCacheF st)

/-! ## Invariants of the fairness counters -/

/-- Well-formedness of one fairness counter with respect to its pool
`P`: dict keys are distinct, every stored count is at least 1 and its
key is a pool phrase, any two stored counts differ by at most 1, and if
some pool phrase was never drawn then every stored count is exactly 1. -/
def CtrOK (P : Finset String) (c : Counter) : Prop :=
  (cKeys c).Nodup ∧
  (∀ p ∈ c, 1 ≤ p.2 ∧ p.1 ∈ P) ∧
  (∀ p ∈ c, ∀ q ∈ c, p.2 ≤ q.2 + 1) ∧
  ((∃ x ∈ P, x ∉ cKeys c) → ∀ p ∈ c, p.2 = 1)

/-- Global invariant of a fetcher state: every non-empty counter is
well-formed with respect to the pool cached for its group's file path. -/
def GInv (root : String) (st : FlockState) : Prop :=
  ∀ m col cls, st.counters (m, col, cls) = [] ∨
    ∃ P, st.cache (poolPath root col cls) = some P ∧
      CtrOK P (st.counters (m, col, cls))

/-- A sequence of mutex-constrained draws on one (mutex, col, cls)
group, one choice oracle per draw, collecting the returned phrases. -/
def runSeq (fs : String → Option String) (root col cls m : String) :
    List (Finset String → String) → FlockState →
    Except String (List String × FlockState)
  | [], st => .ok ([], st)
  | pick :: picks, st =>
    match sampleF fs pick root st col cls (some m) with
    | .error e => .error e
    | .ok (r, st') =>
      match runSeq fs root col cls m picks st' with
      | .error e => .error e
      | .ok (rs, st'') => .ok (r :: rs, st'')

/-! ## Fillable nodes

The parser and block constructors live outside this repository's
sources (`parser.py`, `blob.py`); phrase content nodes are opaque here,
so their construction is recorded symbolically: which external
constructor was called, with which arguments. -/

inductive Fillable
  | atom (s : String)
  | parsed (retType : String) (s : String)
  | parsedSentence (s : String)
  | parsedParagraph (s : String)
  | block (wrapWith : String) (children : List Fillable)
  | blockSep (children : List Fillable) (sep : String)

/-- FlockFetcher.fetch (fetcher.py lines 70-75): sample a phrase, parse
it at granularity `sampleType` (`parser.parse(sample, ret_type=...)`),
wrap with the block constructor named `wrapWith`, and return the
single-entry mapping keyed by `tag`. -/
def flockFetch (fs : String → Option String) (pick : Finset String → String)
    (root : String) (st : FlockState)
    (tag col cls sampleType wrapWith : String) (mutex : Option String) :
    Except String ((String × Fillable) × FlockState) :=
  match sampleF fs pick root st col cls mutex with
  | .error e => .error e
  | .ok (s, st') => .ok ((tag, .block wrapWith [.parsed sampleType s]), st')

/-! ## StudentFetcher rows -/

/-- A validated roster row as `fetch_row`/`fetch_flock` consume it. -/
structure Row where
  first_name : String
  last_name : String
  gender : String
  assignment : String
  participation : String
  final : String
  overall : String
  mutex : Option String

/-- Python `row[col]` for the four evaluation columns. -/
def Row.gradeOf (r : Row) : String → String
  | "assignment" => r.assignment
  | "participation" => r.participation
  | "final" => r.final
  | "overall" => r.overall
  | _ => ""

/-- StudentFetcher.fetch_flock (fetcher.py lines 192-204).  The `ty`
argument selects only the tag prefix; the call to FlockFetcher.fetch on
line 203 does not pass `sample_type`, so the parse granularity is the
default `'paragraph'` of `fetch`, and `wrap_with` is `'paragraph'`. -/
def fetchFlockRow (fs : String → Option String)
    (pick : Finset String → String) (root : String) (st : FlockState)
    (row : Row) (col ty : String) :
    Except String ((String × Fillable) × FlockState) :=
  match (if ty = "sentence" then Except.ok "sent"
         else if ty = "paragraph" then Except.ok "para"
         else Except.error ("Unrecognized type = " ++ ty)) with
  | .error e => .error e
  | .ok pre =>
    let mutex : Option String :=
      match row.mutex with
      | none => none
      | some s => if s ≠ "" then some (pyStrip s) else some s
    flockFetch fs pick root st (pre ++ "_" ++ col) col
      (pyLower (row.gradeOf col)) "paragraph" "paragraph" mutex

/-- The seed mapping built by StudentFetcher.fetch_row (fetcher.py
lines 207-218) before any flock or additional-column entry is merged:
first name, last name, and the eight gender-derived pronoun slots. -/
def fetchRowSeed (row : Row) : List (String × Fillable) :=
  [("first_name", .atom row.first_name),
   ("last_name", .atom row.last_name),
   ("he", .atom (if row.gender = "M" then "he" else "she")),
   ("him", .atom (if row.gender = "M" then "him" else "her")),
   ("his", .atom (if row.gender = "M" then "his" else "her")),
   ("himself", .atom (if row.gender = "M" then "himself" else "herself")),
   ("He", .atom (if row.gender = "M" then "He" else "She")),
   ("Him", .atom (if row.gender = "M" then "Him" else "Her")),
   ("His", .atom (if row.gender = "M" then "His" else "Her")),
   ("Himself", .atom (if row.gender = "M" then "Himself" else "Herself"))]

/-! ## Roster loading and validation (StudentFetcher.set_cache) -/

/-- Modelled from the spec: `global_utils.capitalize` is not among this
repository's source files; the spec says basic-column values are
normalized by "trim whitespace, then capitalize using locale-aware
title casing of the first letter only (rest unchanged)". -/
def capitalizeSpec (s : String) : String :=
  match s.data with
  | [] => ""
  | ch :: rest => String.mk (ch.toUpper :: rest)

/-- The seven required columns, in the order set_cache checks them. -/
def basicColumns : List String :=
  ["first_name", "last_name", "gender", "assignment", "participation",
   "final", "overall"]

/-- The four grade columns, in the order check_rows checks them. -/
def gradeColumns : List String :=
  ["assignment", "participation", "final", "overall"]

/-- The roster table as pandas hands it to set_cache: a header and one
cell-valued function per row (every header column is defined on every
row).  CSV decoding itself is outside the embedded fragment. -/
structure Table where
  header : List String
  rows : List (String → String)

/-- StudentFetcher._preprocess_column: strip and capitalize one column
of every row. -/
def preprocessColumn (tbl : Table) (col : String) : Table :=
  { tbl with
    rows := tbl.rows.map (fun r => fun c =>
      if c = col then capitalizeSpec (pyStrip (r c)) else r c) }

/-- Rendering of a list of strings separated by `sep` (used for the
printed header collection and the printed row). -/
def joinSep (sep : String) : List String → String
  | [] => ""
  | [h] => h
  | h :: t => h ++ sep ++ joinSep sep t

/-- The missing-column ValueError message of set_cache (line 171). -/
def missingMsg (path c : String) (header : List String) : String :=
  "'" ++ c ++ "' not found in " ++ path ++
    "; check these table header again: \n " ++ joinSep ", " header

/-- The loop over basic columns in set_cache (lines 169-173): check
presence, else fail naming the column and the header; then preprocess. -/
def checkColumnsLoop (path : String) : List String → Table → Except String Table
  | [], tbl => .ok tbl
  | col :: rest, tbl =>
    if col ∈ tbl.header then checkColumnsLoop path rest (preprocessColumn tbl col)
    else .error (missingMsg path col tbl.header)

/-- Printing of a whole row (the `{row}` interpolation of line 187
prints the pandas Series: every column with its value). -/
def rowRepr (header : List String) (r : String → String) : String :=
  joinSep "\n" (header.map (fun c => c ++ " " ++ r c))

/-- The bad-gender ValueError message of check_rows (line 187). -/
def genderMsg (header : List String) (r : String → String) : String :=
  "Unknown gender " ++ rowRepr header r ++ " for " ++ r "first_name" ++
    " " ++ r "last_name" ++ " found"

/-- The bad-grade ValueError message of check_rows (line 190). -/
def gradeMsg (col : String) (r : String → String) : String :=
  "Unknown " ++ col ++ " grade '" ++ r col ++ "' for " ++
    r "first_name" ++ " " ++ r "last_name"

/-- The inner loop of check_rows over the four grade columns. -/
def gradeCheckLoop (r : String → String) : List String → Except String Unit
  | [] => .ok ()
  | col :: rest =>
    if r col ∈ (["A", "B", "C", "D"] : List String) then gradeCheckLoop r rest
    else .error (gradeMsg col r)

/-- StudentFetcher.check_rows (lines 184-190): reject the first row
with a gender outside {M, F} or a grade outside {A, B, C, D}. -/
def checkRowsLoop (header : List String) :
    List (String → String) → Except String Unit
  | [] => .ok ()
  | r :: rest =>
    if r "gender" ∈ (["M", "F"] : List String) then
      match gradeCheckLoop r gradeColumns with
      | .error e => .error e
      | .ok _ => checkRowsLoop header rest
    else .error (genderMsg header r)

/-- StudentFetcher.set_cache (lines 158-176) on an already-decoded
table: require the seven basic columns (preprocessing each) and
validate every row. -/
def setCacheStudent (path : String) (tbl : Table) : Except String Table :=
  match checkColumnsLoop path basicColumns tbl with
  | .error e => .error e
  | .ok tbl' =>
    match checkRowsLoop tbl'.header tbl'.rows with
    | .error e => .error e
    | .ok _ => .ok tbl'

/-- The additional (free-form) columns of a loaded roster (line 175). -/
def additionalColumns (tbl : Table) : List String :=
  tbl.header.filter (fun c => c ∉ basicColumns)

/-- The combined normalization a cell undergoes when its column is in
`cols` (each column of `cols` is preprocessed exactly once). -/
def normOn (cols : List String) (r : String → String) (c : String) : String :=
  if c ∈ cols then capitalizeSpec (pyStrip (r c)) else r c

/-- Substring relation on strings: the needle's characters occur
consecutively in the haystack. -/
def strIn (needle hay : String) : Prop := needle.data <:+: hay.data

/-! ## ProjectInfoFetcher -/

inductive PIVal
  | scalar (f : Fillable)
  | seq (l : List Fillable)

/-- The four metadata file paths of a ProjectInfoFetcher, with the
constructor's defaults applied when an override is absent. -/
structure PIPaths where
  description : String
  signature : String
  date : String
  programName : String

/-- ProjectInfoFetcher.__init__ (lines 79-93). -/
def mkPIPaths (root : String) (dp sp dtp pnp : Option String) : PIPaths :=
  { description := root ++ "/" ++ dp.getD "program_description.txt",
    signature := root ++ "/" ++ sp.getD "instructor_signature.txt",
    date := root ++ "/" ++ dtp.getD "date.txt",
    programName := root ++ "/" ++ pnp.getD "program_name.txt" }

/-- Modelled from the spec: `parser.nonempty_segments` is not among
this repository's source files; the spec says date.txt "is split into
non-empty newline-delimited segments". -/
def nonemptySegmentsNL (t : String) : List String :=
  (pySplitLines t).filter (fun s => s ≠ "")

/-- ProjectInfoFetcher.set_cache (lines 109-135) given the four file
texts: the cache mapping built either verbatim (Atom wrappers) or
parsed (paragraph / per-line sentences / sentence). -/
def piBuild (description sigText dateText programName : String)
    (verbatim : Bool) : List (String × PIVal) :=
  let date := nonemptySegmentsNL dateText
  if verbatim then
    [("program_description", .scalar (.atom description)),
     ("instructor_signature", .scalar (.atom sigText)),
     ("date", .seq (date.map .atom)),
     ("program_name", .scalar (.atom programName))]
  else
    [("program_description", .scalar (.parsedParagraph description)),
     ("instructor_signature",
      .scalar (.blockSep ((pySplitLines sigText).map .parsedSentence) "\n")),
     ("date", .seq (date.map .parsedSentence)),
     ("program_name", .scalar (.parsedSentence programName))]

/-- set_cache including the four file reads; the returned list is the
paths read (each exactly once). -/
def piSetCache (fs : String → Option String) (pp : PIPaths)
    (verbatim : Bool) :
    Except String (List (String × PIVal) × List String) :=
  match fs pp.description with
  | none => .error ("FileNotFoundError: " ++ pp.description)
  | some d =>
    match fs pp.signature with
    | none => .error ("FileNotFoundError: " ++ pp.signature)
    | some s =>
      match fs pp.date with
      | none => .error ("FileNotFoundError: " ++ pp.date)
      | some dt =>
        match fs pp.programName with
        | none => .error ("FileNotFoundError: " ++ pp.programName)
        | some pn =>
          .ok (piBuild d s dt pn verbatim,
               [pp.description, pp.signature, pp.date, pp.programName])

/-- Resolution of one cached value in sample_from_cache: a sequence is
replaced by `np.random.choice` of it, a scalar passes through. -/
def piResolveVal (pickL : List Fillable → Fillable) :
    PIVal → Except String Fillable
  | .scalar f => .ok f
  | .seq [] => .error "ValueError: a must be non-empty"
  | .seq (f :: l) => .ok (pickL (f :: l))

/-- ProjectInfoFetcher.sample_from_cache (lines 95-102). -/
def piSample (pickL : List Fillable → Fillable) :
    List (String × PIVal) → Except String (List (String × Fillable))
  | [] => .ok []
  | (k, v) :: rest =>
    match piResolveVal pickL v with
    | .error e => .error e
    | .ok f =>
      match piSample pickL rest with
      | .error e => .error e
      | .ok out => .ok ((k, f) :: out)

/-- ProjectInfoFetcher.fetch (lines 104-107): build the cache only when
it is empty, then sample from it.  Returns the fetched mapping, the
cache state after the call, and the file paths read during the call. -/
def piFetch (fs : String → Option String) (pickL : List Fillable → Fillable)
    (pp : PIPaths) (cache : List (String × PIVal)) (verbatim : Bool) :
    Except String (List (String × Fillable) × List (String × PIVal) × List String) :=
  if cache.length = 0 then
    match piSetCache fs pp verbatim with
    | .error e => .error e
    | .ok (cache', reads) =>
      match piSample pickL cache' with
      | .error e => .error e
      | .ok out => .ok (out, cache', reads)
  else
    match piSample pickL cache with
    | .error e => .error e
    | .ok out => .ok (out, cache, [])

/-- Iterated fetch calls with the given verbatim flags, accumulating
every file path read across the calls. -/
def piFetchIter (fs : String → Option String)
    (pickL : List Fillable → Fillable) (pp : PIPaths) :
    List Bool → List (String × PIVal) →
    Except String (List (String × PIVal) × List String)
  | [], cache => .ok (cache, [])
  | v :: vs, cache =>
    match piFetch fs pickL pp cache v with
    | .error e => .error e
    | .ok (_, cache', reads) =>
      match piFetchIter fs pickL pp vs cache' with
      | .error e => .error e
      | .ok (cacheF, rs) => .ok (cacheF, reads ++ rs)

/-! ## Concrete scenario constants used by the witnesses -/

/-- A concrete valid choice oracle: the least element of the set. -/
def pickW (s : Finset String) : String := (s.sort (· ≤ ·)).headD ""

/-- A concrete valid list-choice oracle for sample_from_cache. -/
def pickLW (l : List Fillable) : Fillable := l.headD (.atom "")

/-- A fetcher state whose pool cache already holds the pool {"x", "y"}
for the path of ("c", "a") under root "r", with all counters empty. -/
def stC2 : FlockState :=
  { cache := fun p => if p = poolPath "r" "c" "a" then some {"x", "y"} else none,
    counters := fun _ => [] }

/-- Like `stC2` but with both pool phrases already drawn once by the
group ("m", "c", "a"): the drained configuration. -/
def stC3 : FlockState :=
  { cache := fun p => if p = poolPath "r" "c" "a" then some {"x", "y"} else none,
    counters := fun k => if k = ("m", "c", "a") then [("x", 1), ("y", 1)] else [] }

/-- A filesystem holding one three-phrase pool file. -/
def fsC4 : String → Option String :=
  fun p => if p = poolPath "r" "c" "a" then some "a\nb\nc" else none

/-- A filesystem whose pool file for ("c", "a") has only blank lines. -/
def fsEmptyPool : String → Option String :=
  fun p => if p = poolPath "r" "c" "a" then some "\n \n" else none

/-- A concrete row with gender M used by concrete evaluations. -/
def rowM : Row :=
  { first_name := "John", last_name := "Doe", gender := "M",
    assignment := "A", participation := "B", final := "C", overall := "D",
    mutex := some " m1 " }

/-- A filesystem holding the four project-info metadata files. -/
def fsPI : String → Option String :=
  fun p =>
    if p = "pi/program_description.txt" then some "desc"
    else if p = "pi/instructor_signature.txt" then some "sig"
    else if p = "pi/date.txt" then some "d1\nd2"
    else if p = "pi/program_name.txt" then some "prog"
    else none

/-- A filesystem holding one participation pool file for grade b. -/
def fsC6 : String → Option String :=
  fun p => if p = poolPath "r" "participation" "b" then some "good effort"
           else none

/-- A roster table missing the column overall. -/
def tblMissing : Table :=
  { header := ["first_name", "last_name", "gender", "assignment",
               "participation", "final"],
    rows := [] }

/-- A row whose gender is X (invalid). -/
def rowX : String → String :=
  fun c => if c = "gender" then "X"
           else if c = "first_name" then "Ann"
           else if c = "last_name" then "Lee" else "A"

/-- A roster table containing only the gender-X row. -/
def tblX : Table := { header := basicColumns, rows := [rowX] }

/-- A row whose final grade is E (invalid). -/
def rowE : String → String :=
  fun c => if c = "final" then "E"
           else if c = "gender" then "M"
           else if c = "first_name" then "Bob"
           else if c = "last_name" then "Kim" else "B"

/-- A roster table containing only the final-E row. -/
def tblE : Table := { header := basicColumns, rows := [rowE] }

/-- Concrete project-info paths under root "pi" with all defaults. -/
def ppPI : PIPaths := mkPIPaths "pi" none none none none

/-! ## Counter lemmas -/

theorem cHasKey_iff (c : Counter) (k : String) :
    cHasKey c k = true ↔ k ∈ cKeys c := by
  simp [cHasKey, cKeys, List.any_eq_true, List.mem_map]

theorem maxVal_cons (q : String × Nat) (c : Counter) :
    maxVal (q :: c) = max q.2 (maxVal c) := rfl

theorem le_maxVal (c : Counter) : ∀ p ∈ c, p.2 ≤ maxVal c := by
  induction c with
  | nil => intro p hp; cases hp
  | cons q c ih =>
    intro p hp
    rcases List.mem_cons.1 hp with rfl | hp
    · exact le_max_left _ _
    · exact (ih p hp).trans (le_max_right _ _)

theorem maxVal_attained (c : Counter) (hc : c ≠ []) :
    ∃ p ∈ c, p.2 = maxVal c := by
  induction c with
  | nil => exact absurd rfl hc
  | cons q c ih =>
    by_cases h : c = []
    · subst h
      exact ⟨q, List.mem_cons_self _ _, by simp [maxVal_cons, maxVal, cValues]⟩
    · rcases ih h with ⟨p, hp, hpv⟩
      rcases le_total q.2 (maxVal c) with hle | hle
      · exact ⟨p, List.mem_cons_of_mem _ hp,
          by rw [maxVal_cons, max_eq_right hle, hpv]⟩
      · exact ⟨q, List.mem_cons_self _ _, by rw [maxVal_cons, max_eq_left hle]⟩

theorem foldr_min_le_init (l : List Nat) (i : Nat) : l.foldr min i ≤ i := by
  induction l with
  | nil => exact le_refl _
  | cons a l ih => exact (min_le_right _ _).trans ih

theorem le_foldr_min (l : List Nat) (i b : Nat) (hb : b ≤ i)
    (hl : ∀ x ∈ l, b ≤ x) : b ≤ l.foldr min i := by
  induction l with
  | nil => exact hb
  | cons a l ih =>
    exact le_min (hl a (List.mem_cons_self _ _))
      (ih (fun x hx => hl x (List.mem_cons_of_mem _ hx)))

theorem minVal_le_maxVal (c : Counter) : minVal c ≤ maxVal c :=
  foldr_min_le_init _ _

theorem maxmin_le_one (c : Counter)
    (hpair : ∀ p ∈ c, ∀ q ∈ c, p.2 ≤ q.2 + 1) :
    maxVal c - minVal c ≤ 1 := by
  by_cases hc : c = []
  · subst hc; simp [maxVal, minVal, cValues]
  · rcases maxVal_attained c hc with ⟨pm, hpm, hpv⟩
    have hlb : maxVal c - 1 ≤ minVal c := by
      apply le_foldr_min
      · omega
      · intro x hx
        rcases List.mem_map.1 hx with ⟨q, hq, rfl⟩
        have := hpair pm hpm q hq
        omega
    omega

theorem cIncr_of_mem (c : Counter) (k : String) (h : k ∈ cKeys c) :
    cIncr c k = c.map (fun p => if p.1 = k then (p.1, p.2 + 1) else p) := by
  rw [cIncr, if_pos ((cHasKey_iff c k).2 h)]

theorem cIncr_of_not_mem (c : Counter) (k : String) (h : k ∉ cKeys c) :
    cIncr c k = c ++ [(k, 1)] := by
  rw [cIncr, if_neg]
  intro hk
  exact h ((cHasKey_iff c k).1 hk)

theorem fst_upd (k : String) (p : String × Nat) :
    (if p.1 = k then (p.1, p.2 + 1) else p).1 = p.1 := by
  split <;> rfl

theorem cKeys_cIncr_mem (c : Counter) (k : String) (h : k ∈ cKeys c) :
    cKeys (cIncr c k) = cKeys c := by
  rw [cIncr_of_mem c k h, cKeys, cKeys, List.map_map]
  exact List.map_congr_left (fun p _ => fst_upd k p)

theorem cKeys_cIncr_not_mem (c : Counter) (k : String) (h : k ∉ cKeys c) :
    cKeys (cIncr c k) = cKeys c ++ [k] := by
  rw [cIncr_of_not_mem c k h, cKeys, cKeys, List.map_append]
  rfl

theorem nodup_cIncr (c : Counter) (k : String) (hnd : (cKeys c).Nodup) :
    (cKeys (cIncr c k)).Nodup := by
  by_cases h : k ∈ cKeys c
  · rw [cKeys_cIncr_mem c k h]; exact hnd
  · rw [cKeys_cIncr_not_mem c k h]
    simp [List.nodup_append, hnd, h]

theorem mem_cIncr (c : Counter) (k : String) (p : String × Nat)
    (hp : p ∈ cIncr c k) :
    (∃ q ∈ c, q.1 ≠ k ∧ p = q) ∨ (∃ q ∈ c, q.1 = k ∧ p = (q.1, q.2 + 1)) ∨
    (k ∉ cKeys c ∧ p = (k, 1)) := by
  by_cases h : k ∈ cKeys c
  · rw [cIncr_of_mem c k h] at hp
    rcases List.mem_map.1 hp with ⟨q, hq, rfl⟩
    by_cases hqk : q.1 = k
    · exact Or.inr (Or.inl ⟨q, hq, hqk, by rw [if_pos hqk]⟩)
    · exact Or.inl ⟨q, hq, hqk, by rw [if_neg hqk]⟩
  · rw [cIncr_of_not_mem c k h] at hp
    rcases List.mem_append.1 hp with hp | hp
    · by_cases hqk : p.1 = k
      · exact absurd (List.mem_map.2 ⟨p, hp, hqk⟩) h
      · exact Or.inl ⟨p, hp, hqk, rfl⟩
    · rcases List.mem_singleton.1 hp with rfl
      exact Or.inr (Or.inr ⟨h, rfl⟩)

theorem mem_satKeys (c : Counter) (x : String) :
    x ∈ satKeys c ↔ ∃ q ∈ c, q.1 = x ∧ q.2 = maxVal c := by
  simp only [satKeys, List.mem_toFinset, List.mem_map, List.mem_filter,
    decide_eq_true_eq]
  constructor
  · rintro ⟨q, ⟨hq, hv⟩, rfl⟩; exact ⟨q, hq, rfl, hv⟩
  · rintro ⟨q, hq, rfl, hv⟩; exact ⟨q, ⟨hq, hv⟩, rfl⟩

theorem elemsNonempty_of (c : Counter) (hv : ∀ p ∈ c, 1 ≤ p.2)
    (hc : c ≠ []) : elemsNonempty c = true := by
  cases c with
  | nil => exact absurd rfl hc
  | cons q c =>
    simp only [elemsNonempty, List.any_eq_true, decide_eq_true_eq]
    exact ⟨q, List.mem_cons_self _ _, hv q (List.mem_cons_self _ _)⟩

theorem nodup_keys_inj (c : Counter) (hnd : (cKeys c).Nodup)
    (p q : String × Nat) (hp : p ∈ c) (hq : q ∈ c) (h : p.1 = q.1) :
    p = q := by
  induction c with
  | nil => cases hp
  | cons r c ih =>
    rw [cKeys, List.map_cons, List.nodup_cons] at hnd
    rcases List.mem_cons.1 hp with hpr | hp'
    · rcases List.mem_cons.1 hq with hqr | hq'
      · exact hpr.trans hqr.symm
      · exact absurd
          (List.mem_map.2 ⟨q, hq', h.symm.trans (congrArg Prod.fst hpr)⟩) hnd.1
    · rcases List.mem_cons.1 hq with hqr | hq'
      · exact absurd
          (List.mem_map.2 ⟨p, hp', h.trans (congrArg Prod.fst hqr)⟩) hnd.1
      · exact ih hnd.2 hp' hq'

theorem find?_key_of_mem (c : Counter) (k : String) (h : k ∈ cKeys c) :
    ∃ q, c.find? (fun p => p.1 = k) = some q ∧ q.1 = k := by
  induction c with
  | nil => simp [cKeys] at h
  | cons q c ih =>
    by_cases hq : q.1 = k
    · exact ⟨q, List.find?_cons_of_pos _ (by simp [hq]), hq⟩
    · have h0 : k ∈ q.1 :: cKeys c := by
        rw [cKeys, List.map_cons] at h
        exact h
      have h' : k ∈ cKeys c := by
        rcases List.mem_cons.1 h0 with hk | hk
        · exact absurd hk.symm hq
        · exact hk
      rcases ih h' with ⟨a, ha, hak⟩
      exact ⟨a, by rw [List.find?_cons_of_neg _ (by simp [hq]), ha], hak⟩

theorem find?_none_of_not_mem (c : Counter) (k : String) (h : k ∉ cKeys c) :
    c.find? (fun p => p.1 = k) = none := by
  rw [List.find?_eq_none]
  intro p hp
  simp only [decide_eq_true_eq]
  exact fun hpk => h (List.mem_map.2 ⟨p, hp, hpk⟩)

theorem find?_append_none (l₁ l₂ : Counter) (pr : String × Nat → Bool)
    (h : l₁.find? pr = none) : (l₁ ++ l₂).find? pr = l₂.find? pr := by
  induction l₁ with
  | nil => rfl
  | cons a l₁ ih =>
    cases hpr : pr a with
    | true => rw [List.find?_cons_of_pos _ hpr] at h; cases h
    | false =>
      rw [List.find?_cons_of_neg _ (by simp [hpr])] at h
      rw [List.cons_append, List.find?_cons_of_neg _ (by simp [hpr])]
      exact ih h

theorem find?_append_some (l₁ l₂ : Counter) (pr : String × Nat → Bool)
    (q : String × Nat) (h : l₁.find? pr = some q) :
    (l₁ ++ l₂).find? pr = some q := by
  induction l₁ with
  | nil => cases h
  | cons a l₁ ih =>
    cases hpr : pr a with
    | true =>
      rw [List.find?_cons_of_pos _ hpr] at h
      rw [List.cons_append, List.find?_cons_of_pos _ hpr]
      exact h
    | false =>
      rw [List.find?_cons_of_neg _ (by simp [hpr])] at h
      rw [List.cons_append, List.find?_cons_of_neg _ (by simp [hpr])]
      exact ih h

theorem find?_map_upd (c : Counter) (k : String) :
    (c.map (fun p => if p.1 = k then (p.1, p.2 + 1) else p)).find?
        (fun p => p.1 = k) =
      (c.find? (fun p => p.1 = k)).map (fun p => (p.1, p.2 + 1)) := by
  induction c with
  | nil => rfl
  | cons q c ih =>
    by_cases hq : q.1 = k
    · rw [List.map_cons,
        List.find?_cons_of_pos _ (by simp only [fst_upd]; simp [hq]),
        List.find?_cons_of_pos _ (by simp [hq]), if_pos hq]
      rfl
    · rw [List.map_cons,
        List.find?_cons_of_neg _ (by simp only [fst_upd]; simp [hq]),
        List.find?_cons_of_neg _ (by simp [hq]), ih]

theorem find?_map_upd_other (c : Counter) (k k' : String) (hkk : k' ≠ k) :
    (c.map (fun p => if p.1 = k then (p.1, p.2 + 1) else p)).find?
        (fun p => p.1 = k') = c.find? (fun p => p.1 = k') := by
  induction c with
  | nil => rfl
  | cons q c ih =>
    by_cases hq : q.1 = k'
    · rw [List.map_cons,
        List.find?_cons_of_pos _ (by simp only [fst_upd]; simp [hq]),
        List.find?_cons_of_pos _ (by simp [hq]),
        if_neg (fun hc => hkk (hq.symm.trans hc))]
    · rw [List.map_cons,
        List.find?_cons_of_neg _ (by simp only [fst_upd]; simp [hq]),
        List.find?_cons_of_neg _ (by simp [hq]), ih]

theorem cVal_cIncr_self (c : Counter) (k : String) :
    cVal (cIncr c k) k = cVal c k + 1 := by
  by_cases h : k ∈ cKeys c
  · rw [cIncr_of_mem c k h]
    obtain ⟨q, hq, hqk⟩ := find?_key_of_mem c k h
    rw [cVal, cVal, find?_map_upd, hq]
    rfl
  · rw [cIncr_of_not_mem c k h, cVal, cVal, find?_none_of_not_mem c k h,
      find?_append_none _ _ _ (find?_none_of_not_mem c k h),
      List.find?_cons_of_pos _ (by simp)]
    rfl

theorem cVal_cIncr_other (c : Counter) (k k' : String) (hkk : k' ≠ k) :
    cVal (cIncr c k) k' = cVal c k' := by
  by_cases h : k ∈ cKeys c
  · rw [cIncr_of_mem c k h, cVal, cVal, find?_map_upd_other c k k' hkk]
  · rw [cIncr_of_not_mem c k h, cVal, cVal]
    by_cases h' : k' ∈ cKeys c
    · obtain ⟨q, hq, hqk⟩ := find?_key_of_mem c k' h'
      rw [find?_append_some _ _ _ q hq, hq]
    · rw [find?_none_of_not_mem c k' h',
        find?_append_none _ _ _ (find?_none_of_not_mem c k' h'),
        List.find?_cons_of_neg _ (by
          simp only [decide_eq_true_eq]
          exact fun hc => hkk hc.symm)]
      rfl

theorem map_upd_id_of_not_mem (c : Counter) (k : String) (h : k ∉ cKeys c) :
    c.map (fun p => if p.1 = k then (p.1, p.2 + 1) else p) = c := by
  conv_rhs => rw [← List.map_id c]
  apply List.map_congr_left
  intro p hp
  rw [if_neg (fun hpk => h (List.mem_map.2 ⟨p, hp, hpk⟩))]
  rfl

theorem sum_map_upd (c : Counter) (k : String) (hnd : (cKeys c).Nodup)
    (h : k ∈ cKeys c) :
    cTotal (c.map (fun p => if p.1 = k then (p.1, p.2 + 1) else p)) =
      cTotal c + 1 := by
  induction c with
  | nil => simp [cKeys] at h
  | cons q c ih =>
    rw [cKeys, List.map_cons, List.nodup_cons] at hnd
    by_cases hq : q.1 = k
    · have hkc : k ∉ cKeys c := hq ▸ hnd.1
      rw [List.map_cons, if_pos hq, map_upd_id_of_not_mem c k hkc]
      simp only [cTotal, cValues, List.map_cons, List.sum_cons]
      omega
    · have hkc : k ∈ cKeys c := by
        have h0 : k ∈ q.1 :: cKeys c := by
          rw [cKeys, List.map_cons] at h
          exact h
        rcases List.mem_cons.1 h0 with hk | hk
        · exact absurd hk.symm hq
        · exact hk
      rw [List.map_cons, if_neg hq]
      have hih := ih hnd.2 hkc
      simp only [cTotal, cValues, List.map_cons, List.sum_cons] at hih ⊢
      omega

theorem cTotal_cIncr (c : Counter) (k : String) (hnd : (cKeys c).Nodup) :
    cTotal (cIncr c k) = cTotal c + 1 := by
  by_cases h : k ∈ cKeys c
  · rw [cIncr_of_mem c k h]
    exact sum_map_upd c k hnd h
  · rw [cIncr_of_not_mem c k h]
    simp [cTotal, cValues, List.map_append]

/-- Case analysis of membership in an incremented counter, phrased on
the entry's components. -/
theorem mem_cIncr_cases (c : Counter) (k : String) (p : String × Nat)
    (hp : p ∈ cIncr c k) :
    (p ∈ c ∧ p.1 ≠ k) ∨ (p.1 = k ∧ ∃ v, (k, v) ∈ c ∧ p.2 = v + 1) ∨
    (k ∉ cKeys c ∧ p = (k, 1)) := by
  by_cases h : k ∈ cKeys c
  · rw [cIncr_of_mem c k h] at hp
    rcases List.mem_map.1 hp with ⟨q, hq, hqe⟩
    by_cases hqk : q.1 = k
    · rw [if_pos hqk] at hqe
      refine Or.inr (Or.inl ⟨by rw [← hqe, hqk], q.2, ?_, by rw [← hqe]⟩)
      rw [← hqk]
      exact hq
    · rw [if_neg hqk] at hqe
      exact Or.inl ⟨hqe ▸ hq, hqe ▸ hqk⟩
  · rw [cIncr_of_not_mem c k h] at hp
    rcases List.mem_append.1 hp with hp | hp
    · by_cases hqk : p.1 = k
      · exact absurd (List.mem_map.2 ⟨p, hp, hqk⟩) h
      · exact Or.inl ⟨hp, hqk⟩
    · exact Or.inr (Or.inr ⟨h, List.mem_singleton.1 hp⟩)

/-! ## Preservation of counter well-formedness by one draw -/

theorem ctrok_empty_incr (P : Finset String) (x : String) (hx : x ∈ P) :
    CtrOK P (cIncr [] x) := by
  rw [cIncr_of_not_mem _ _ (by simp [cKeys])]
  refine ⟨by simp [cKeys], ?_, ?_, ?_⟩
  · intro p hp
    rcases List.mem_singleton.1 hp with rfl
    exact ⟨le_refl 1, hx⟩
  · intro p hp q hq
    rcases List.mem_singleton.1 hp with rfl
    rcases List.mem_singleton.1 hq with rfl
    omega
  · intro _ p hp
    rcases List.mem_singleton.1 hp with rfl
    rfl

theorem ctrok_incr_elig (P : Finset String) (c : Counter) (x : String)
    (hc : CtrOK P c) (hcne : c ≠ []) (hx : x ∈ P) (hnot : x ∉ satKeys c) :
    CtrOK P (cIncr c x) := by
  obtain ⟨hnd, hvk, hpair, hund⟩ := hc
  obtain ⟨pm, hpm, hpmv⟩ := maxVal_attained c hcne
  refine ⟨nodup_cIncr c x hnd, ?_, ?_, ?_⟩
  · intro p hp
    rcases mem_cIncr_cases c x p hp with ⟨hpc, _⟩ | ⟨hpk, v, hv, hpv⟩ |
        ⟨_, rfl⟩
    · exact hvk p hpc
    · exact ⟨by omega, hpk ▸ hx⟩
    · exact ⟨le_refl 1, hx⟩
  · intro p hp q hq
    rcases mem_cIncr_cases c x p hp with ⟨hpc, hpk⟩ | ⟨hpk, v, hv, hpv⟩ |
        ⟨hxk, rfl⟩ <;>
      rcases mem_cIncr_cases c x q hq with ⟨hqc, hqk⟩ | ⟨hqk, w, hw, hqv⟩ |
        ⟨hxk', hqe⟩
    · exact hpair p hpc q hqc
    · have := hpair p hpc (x, w) hw
      omega
    · have hall := hund ⟨x, hx, hxk'⟩
      have := hall p hpc
      rw [hqe]
      omega
    · have hvne : v ≠ maxVal c :=
        fun heq => hnot ((mem_satKeys c x).2 ⟨(x, v), hv, rfl, heq⟩)
      have hvle : v ≤ maxVal c := le_maxVal c (x, v) hv
      have hqlow : maxVal c ≤ q.2 + 1 := hpmv ▸ hpair pm hpm q hqc
      omega
    · have := hpair (x, v) hv (x, w) hw
      omega
    · have hxkc : x ∈ cKeys c := List.mem_map.2 ⟨(x, v), hv, rfl⟩
      exact absurd hxkc hxk'
    · show 1 ≤ q.2 + 1
      omega
    · show 1 ≤ q.2 + 1
      omega
    · rw [hqe]
      show 1 ≤ 1 + 1
      omega
  · rintro ⟨y, hy, hyk⟩
    by_cases hxk : x ∈ cKeys c
    · rw [cKeys_cIncr_mem c x hxk] at hyk
      have hall := hund ⟨y, hy, hyk⟩
      obtain ⟨a, ha, hak⟩ := List.mem_map.1 hxk
      exact absurd ((mem_satKeys c x).2 ⟨a, ha, hak, by
        rw [hall a ha, ← hpmv, hall pm hpm]⟩) hnot
    · rw [cKeys_cIncr_not_mem c x hxk] at hyk
      have hyk' : y ∉ cKeys c := fun hc' => hyk (List.mem_append.2 (Or.inl hc'))
      have hall := hund ⟨y, hy, hyk'⟩
      intro p hp
      rcases mem_cIncr_cases c x p hp with ⟨hpc, _⟩ | ⟨hpk, v, hv, hpv⟩ |
          ⟨_, hpe⟩
      · exact hall p hpc
      · exact absurd (List.mem_map.2 ⟨(x, v), hv, rfl⟩) hxk
      · rw [hpe]

theorem ctrok_incr_drained (P : Finset String) (c : Counter) (x : String)
    (hc : CtrOK P c) (hx : x ∈ P) (hdr : P \ satKeys c = ∅) :
    CtrOK P (cIncr c x) := by
  obtain ⟨hnd, hvk, hpair, hund⟩ := hc
  have hsub : ∀ y ∈ P, y ∈ satKeys c := by
    intro y hy
    by_contra hny
    have hmem : y ∈ P \ satKeys c := Finset.mem_sdiff.2 ⟨hy, hny⟩
    rw [hdr] at hmem
    exact absurd hmem (Finset.not_mem_empty y)
  have hallmax : ∀ p ∈ c, p.2 = maxVal c := by
    intro p hp
    obtain ⟨q, hq, hq1, hq2⟩ := (mem_satKeys c p.1).1 (hsub p.1 (hvk p hp).2)
    rw [nodup_keys_inj c hnd p q hp hq hq1.symm]
    exact hq2
  have hxk : x ∈ cKeys c := by
    obtain ⟨q, hq, hq1, _⟩ := (mem_satKeys c x).1 (hsub x hx)
    exact List.mem_map.2 ⟨q, hq, hq1⟩
  refine ⟨nodup_cIncr c x hnd, ?_, ?_, ?_⟩
  · intro p hp
    rcases mem_cIncr_cases c x p hp with ⟨hpc, _⟩ | ⟨hpk, v, hv, hpv⟩ |
        ⟨hxk', _⟩
    · exact hvk p hpc
    · exact ⟨by omega, hpk ▸ hx⟩
    · exact absurd hxk hxk'
  · intro p hp q hq
    rcases mem_cIncr_cases c x p hp with ⟨hpc, hpk⟩ | ⟨hpk, v, hv, hpv⟩ |
        ⟨hxk', _⟩ <;>
      rcases mem_cIncr_cases c x q hq with ⟨hqc, hqk⟩ | ⟨hqk, w, hw, hqv⟩ |
        ⟨hxk', _⟩
    · exact hpair p hpc q hqc
    · have := hpair p hpc (x, w) hw
      omega
    · exact absurd hxk hxk'
    · have h1 := hallmax (x, v) hv
      have h2 := hallmax q hqc
      simp only at h1 h2
      omega
    · have := hpair (x, v) hv (x, w) hw
      omega
    · exact absurd hxk hxk'
    · exact absurd hxk hxk'
    · exact absurd hxk hxk'
    · exact absurd hxk hxk'
  · rintro ⟨y, hy, hyk⟩
    rw [cKeys_cIncr_mem c x hxk] at hyk
    obtain ⟨q, hq, hq1, _⟩ := (mem_satKeys c y).1 (hsub y hy)
    exact absurd (List.mem_map.2 ⟨q, hq, hq1⟩) hyk

/-! ## Characterization of one sample call -/

theorem getPoss_ok (fs : String → Option String) (st : FlockState)
    (fpath : String) (P : Finset String) (st1 : FlockState)
    (h : getPossibilities fs st fpath = .ok (P, st1)) :
    st1.counters = st.counters ∧ st1.cache fpath = some P ∧
      (∀ p Q, st.cache p = some Q → st1.cache p = some Q) := by
  cases hc : st.cache fpath with
  | some poss =>
    simp only [getPossibilities, hc, Except.ok.injEq, Prod.mk.injEq] at h
    obtain ⟨rfl, rfl⟩ := h
    exact ⟨rfl, hc, fun p Q hq => hq⟩
  | none =>
    cases hf : fs fpath with
    | none =>
      simp only [getPossibilities, hc, hf] at h
      exact Except.noConfusion h
    | some text =>
      simp only [getPossibilities, hc, hf, Except.ok.injEq, Prod.mk.injEq] at h
      obtain ⟨rfl, rfl⟩ := h
      refine ⟨rfl, by simp, ?_⟩
      intro p Q hq
      by_cases hp : p = fpath
      · rw [hp, hc] at hq; cases hq
      · simpa [hp] using hq

theorem ginv_mono (root : String) (st st' : FlockState)
    (hinv : GInv root st) (hctr : st'.counters = st.counters)
    (hmono : ∀ p Q, st.cache p = some Q → st'.cache p = some Q) :
    GInv root st' := by
  intro m col cls
  rcases hinv m col cls with hc | ⟨P, hP, hok⟩
  · exact Or.inl (by rw [hctr]; exact hc)
  · exact Or.inr ⟨P, hmono _ _ hP, by rw [hctr]; exact hok⟩

theorem mutexBranch_ok (pick : Finset String → String)
    (hpick : ValidPick pick) (st1 : FlockState) (P : Finset String)
    (m col cls r : String) (st' : FlockState)
    (hc : st1.counters (m, col, cls) = [] ∨
      CtrOK P (st1.counters (m, col, cls)))
    (h : mutexBranch pick st1 P m col cls = .ok (r, st')) :
    r ∈ P ∧ st'.cache = st1.cache ∧
      st'.counters (m, col, cls) = cIncr (st1.counters (m, col, cls)) r ∧
      (∀ k, k ≠ (m, col, cls) → st'.counters k = st1.counters k) ∧
      CtrOK P (st'.counters (m, col, cls)) := by
  by_cases hce : st1.counters (m, col, cls) = []
  · rw [mutexBranch] at h
    rw [hce] at h
    simp only [elemsNonempty, List.any_nil, Bool.false_eq_true, if_false,
      Finset.sdiff_empty, ite_self, npChoice] at h
    by_cases hP : P = ∅
    · rw [if_pos hP] at h
      cases h
    · rw [if_neg hP] at h
      simp only [Except.ok.injEq, Prod.mk.injEq] at h
      obtain ⟨rfl, rfl⟩ := h
      have hmem : pick P ∈ P :=
        hpick P (Finset.nonempty_iff_ne_empty.2 hP)
      refine ⟨hmem, rfl, ?_, ?_, ?_⟩
      · simp [hce]
      · intro k hk
        simp [hk]
      · simp only [if_pos rfl]
        rw [hce]
        exact ctrok_empty_incr P (pick P) hmem
  · have hok : CtrOK P (st1.counters (m, col, cls)) := by
      rcases hc with hc | hc
      · exact absurd hc hce
      · exact hc
    have helems : elemsNonempty (st1.counters (m, col, cls)) = true :=
      elemsNonempty_of _ (fun p hp => (hok.2.1 p hp).1) hce
    have hassert : maxVal (st1.counters (m, col, cls)) -
        minVal (st1.counters (m, col, cls)) ≤ 1 :=
      maxmin_le_one _ hok.2.2.1
    rw [mutexBranch] at h
    rw [helems] at h
    simp only [if_true, if_pos hassert, npChoice] at h
    by_cases hdr : P \ satKeys (st1.counters (m, col, cls)) = ∅
    · rw [if_pos hdr] at h
      by_cases hP : P = ∅
      · rw [if_pos hP] at h
        cases h
      · rw [if_neg hP] at h
        simp only [Except.ok.injEq, Prod.mk.injEq] at h
        obtain ⟨rfl, rfl⟩ := h
        have hmem : pick P ∈ P :=
          hpick P (Finset.nonempty_iff_ne_empty.2 hP)
        refine ⟨hmem, rfl, by simp, fun k hk => by simp [hk], ?_⟩
        simp only [if_pos rfl]
        exact ctrok_incr_drained P _ (pick P) hok hmem hdr
    · rw [if_neg hdr] at h
      rw [if_neg hdr] at h
      simp only [Except.ok.injEq, Prod.mk.injEq] at h
      obtain ⟨rfl, rfl⟩ := h
      have hmem : pick (P \ satKeys (st1.counters (m, col, cls))) ∈
          P \ satKeys (st1.counters (m, col, cls)) :=
        hpick _ (Finset.nonempty_iff_ne_empty.2 hdr)
      have hmemP := Finset.mem_sdiff.1 hmem
      refine ⟨hmemP.1, rfl, by simp, fun k hk => by simp [hk], ?_⟩
      simp only [if_pos rfl]
      exact ctrok_incr_elig P _ _ hok hce hmemP.1 hmemP.2

theorem sampleF_preserves (fs : String → Option String)
    (pick : Finset String → String) (root : String) (st : FlockState)
    (col cls : String) (mutex : Option String) (r : String)
    (st' : FlockState) (hpick : ValidPick pick) (hinv : GInv root st)
    (h : sampleF fs pick root st col cls mutex = .ok (r, st')) :
    GInv root st' ∧ (∀ p Q, st.cache p = some Q → st'.cache p = some Q) ∧
      (mutexTruthy mutex = false → st'.counters = st.counters) ∧
      (∀ m, mutex = some m → mutexTruthy mutex = true →
        (∃ P, st'.cache (poolPath root col cls) = some P ∧ r ∈ P ∧
          st'.counters (m, col, cls) = cIncr (st.counters (m, col, cls)) r) ∧
        (∀ k, k ≠ (m, col, cls) → st'.counters k = st.counters k)) := by
  rw [sampleF] at h
  cases hg : getPossibilities fs st (poolPath root col cls) with
  | error e =>
    rw [hg] at h
    exact Except.noConfusion h
  | ok v =>
    obtain ⟨P, st1⟩ := v
    obtain ⟨hctr, hcap, hmono⟩ := getPoss_ok fs st _ P st1 hg
    have hinv1 : GInv root st1 := ginv_mono root st st1 hinv hctr hmono
    rw [hg] at h
    cases hmt : mutexTruthy mutex with
    | false =>
      rw [hmt] at h
      simp only [if_pos rfl, npChoice] at h
      by_cases hP : P = ∅
      · rw [if_pos hP] at h
        exact Except.noConfusion h
      · rw [if_neg hP] at h
        simp only [Except.ok.injEq, Prod.mk.injEq] at h
        obtain ⟨rfl, rfl⟩ := h
        refine ⟨hinv1, hmono, fun _ => hctr, ?_⟩
        intro m _ hmt'
        exact absurd hmt' (by simp)
    | true =>
      rw [hmt] at h
      simp only [Bool.true_eq_false, if_false] at h
      obtain ⟨m0, rfl⟩ : ∃ m0, mutex = some m0 := by
        cases mutex with
        | none => simp [mutexTruthy] at hmt
        | some s => exact ⟨s, rfl⟩
      simp only [Option.getD_some] at h
      have hc : st1.counters (m0, col, cls) = [] ∨
          CtrOK P (st1.counters (m0, col, cls)) := by
        rcases hinv1 m0 col cls with hce | ⟨P', hP', hok⟩
        · exact Or.inl hce
        · rw [hcap] at hP'
          obtain rfl : P = P' := by
            cases hP'
            rfl
          exact Or.inr hok
      obtain ⟨hrP, hcache, hmkey, hother, hctrok⟩ :=
        mutexBranch_ok pick hpick st1 P m0 col cls r st' hc h
      have hmono' : ∀ p Q, st.cache p = some Q → st'.cache p = some Q := by
        intro p Q hq
        rw [hcache]
        exact hmono p Q hq
      refine ⟨?_, hmono', ?_, ?_⟩
      · intro m' col' cls'
        by_cases hk : (m', col', cls') = (m0, col, cls)
        · rw [hk]
          refine Or.inr ⟨P, ?_, ?_⟩
          · obtain ⟨heq1, heq2, heq3⟩ : m' = m0 ∧ col' = col ∧ cls' = cls := by
              simpa [Prod.ext_iff] using hk
            rw [heq2, heq3, hcache]
            exact hcap
          · exact hctrok
        · rcases hinv1 m' col' cls' with hce | ⟨P', hP', hok⟩
          · exact Or.inl (by rw [hother _ hk]; exact hce)
          · exact Or.inr ⟨P', by rw [hcache]; exact hP', by
              rw [hother _ hk]; exact hok⟩
      · intro hmf
        exact absurd hmf (by simp)
      · intro m hm _
        obtain rfl : m = m0 := by
          cases hm
          rfl
        refine ⟨⟨P, ?_, hrP, ?_⟩, ?_⟩
        · rw [hcache]
          exact hcap
        · rw [hmkey, hctr]
        · intro k hk
          rw [hother k hk, hctr]

/-- Every reachable state of a FlockFetcher satisfies the global
counter invariant. -/
theorem reaches_ginv (fs : String → Option String) (root : String)
    (st : FlockState) (h : ReachesF fs root st) : GInv root st := by
  induction h with
  | init => exact fun m col cls => Or.inl rfl
  | step pick st st' r col cls mutex hpick hst hcall ih =>
    exact (sampleF_preserves fs pick root st col cls mutex r st'
      hpick ih hcall).1
  | clear st hst ih => exact fun m col cls => Or.inl rfl

theorem pickW_valid : ValidPick pickW := by
  intro s hs
  have hl : s.sort (· ≤ ·) ≠ [] := by
    intro hnil
    have hlen := Finset.length_sort (α := String) (· ≤ ·) (s := s)
    rw [hnil] at hlen
    have hc : s.card = 0 := by simpa using hlen.symm
    rw [Finset.card_eq_zero] at hc
    rw [hc] at hs
    exact absurd hs (by simp)
  cases hsort : s.sort (· ≤ ·) with
  | nil => exact absurd hsort hl
  | cons a t =>
    have ha : a ∈ s.sort (· ≤ ·) := by
      rw [hsort]
      exact List.mem_cons_self _ _
    rw [Finset.mem_sort] at ha
    show (s.sort (· ≤ ·)).headD "" ∈ s
    rw [hsort]
    exact ha

/-- C1: for every FlockFetcher and every sequence of sample calls (in
particular every sequence of mutex-constrained draws, with any outcomes
of the random choices), the fairness counter of every group
(mutex, category, classLabel) satisfies max(count) - min(count) ≤ 1
over the phrases drawn at least once — after every draw, including
draws on which the fairness-drained fallback was taken. -/
theorem claim_C1 (fs : String → Option String) (root : String)
    (st : FlockState) (h : ReachesF fs root st) (m col cls : String) :
    maxVal (st.counters (m, col, cls)) -
      minVal (st.counters (m, col, cls)) ≤ 1 := by
  rcases reaches_ginv fs root st h m col cls with hc | ⟨P, _, hok⟩
  · rw [hc]
    decide
  · exact maxmin_le_one _ hok.2.2.1

theorem claim_C1_witness :
    maxVal (initState.counters ("m1", "overall", "a")) -
      minVal (initState.counters ("m1", "overall", "a")) ≤ 1 :=
  claim_C1 (fun _ => none) "root" initState ReachesF.init "m1" "overall" "a"

/-- C10: in every reachable FlockFetcher state, every entry of every
fairness counter has count at least 1 and its key is a phrase of the
pool cached for that group's file; and a single sample call changes no
counter when the mutex is falsy, while a truthy-mutex draw increments
exactly one pool phrase of exactly its own group's counter; clear_cache
resets all counters. -/
theorem claim_C10 (fs : String → Option String)
    (pick : Finset String → String) (root : String) (st st' : FlockState)
    (m col cls r : String) (mutex : Option String)
    (hpick : ValidPick pick) (hreach : ReachesF fs root st) :
    (∀ m' col' cls', ∀ p ∈ st.counters (m', col', cls'),
      1 ≤ p.2 ∧ ∃ P, st.cache (poolPath root col' cls') = some P ∧ p.1 ∈ P)
    ∧ (sampleF fs pick root st col cls mutex = .ok (r, st') →
        (mutexTruthy mutex = false → st'.counters = st.counters) ∧
        (mutex = some m → mutexTruthy mutex = true →
          (∃ P, st'.cache (poolPath root col cls) = some P ∧ r ∈ P ∧
            st'.counters (m, col, cls) =
              cIncr (st.counters (m, col, cls)) r) ∧
          ∀ k, k ≠ (m, col, cls) → st'.counters k = st.counters k))
    ∧ (clearCacheF st).counters = (fun _ => []) := by
  refine ⟨?_, ?_, rfl⟩
  · intro m' col' cls' p hp
    rcases reaches_ginv fs root st hreach m' col' cls' with hc | ⟨P, hP, hok⟩
    · rw [hc] at hp
      cases hp
    · exact ⟨(hok.2.1 p hp).1, P, hP, (hok.2.1 p hp).2⟩
  · intro hcall
    have hfacts := sampleF_preserves fs pick root st col cls mutex r st'
      hpick (reaches_ginv fs root st hreach) hcall
    exact ⟨hfacts.2.2.1, fun hm hmt => hfacts.2.2.2 m hm hmt⟩

theorem claim_C10_witness :
    (∀ m' col' cls', ∀ p ∈ initState.counters (m', col', cls'),
      1 ≤ p.2 ∧ ∃ P, initState.cache (poolPath "r" col' cls') = some P ∧
        p.1 ∈ P)
    ∧ (sampleF (fun _ => none) pickW "r" initState "c" "a" none =
        .ok ("x", initState) →
        (mutexTruthy none = false → initState.counters = initState.counters) ∧
        (none = some "m" → mutexTruthy none = true →
          (∃ P, initState.cache (poolPath "r" "c" "a") = some P ∧ "x" ∈ P ∧
            initState.counters ("m", "c", "a") =
              cIncr (initState.counters ("m", "c", "a")) "x") ∧
          ∀ k, k ≠ ("m", "c", "a") →
            initState.counters k = initState.counters k))
    ∧ (clearCacheF initState).counters = (fun _ => []) :=
  claim_C10 (fun _ => none) pickW "r" initState initState "m" "c" "a" "x"
    none pickW_valid ReachesF.init

/-! ## Forward evaluation of one sample call -/

theorem sampleF_falsy (fs : String → Option String)
    (pick : Finset String → String) (root : String) (st : FlockState)
    (col cls : String) (mutex : Option String) (P : Finset String)
    (st1 : FlockState)
    (hget : getPossibilities fs st (poolPath root col cls) = .ok (P, st1))
    (hmf : mutexTruthy mutex = false) (hP : P ≠ ∅) :
    sampleF fs pick root st col cls mutex = .ok (pick P, st1) := by
  simp only [sampleF, hget]
  rw [hmf]
  simp [npChoice, hP]

theorem sampleF_truthy (fs : String → Option String)
    (pick : Finset String → String) (root : String) (st : FlockState)
    (col cls m : String) (P : Finset String) (st1 : FlockState)
    (hget : getPossibilities fs st (poolPath root col cls) = .ok (P, st1))
    (hm : m ≠ "") :
    sampleF fs pick root st col cls (some m) =
      mutexBranch pick st1 P m col cls := by
  simp only [sampleF, hget]
  have hmt : mutexTruthy (some m) = true := by simp [mutexTruthy, hm]
  rw [hmt]
  simp

theorem mutexBranch_empty_eq (pick : Finset String → String)
    (st1 : FlockState) (P : Finset String) (m col cls : String)
    (hce : st1.counters (m, col, cls) = []) (hP : P ≠ ∅) :
    mutexBranch pick st1 P m col cls =
      .ok (pick P, { st1 with counters := fun k =>
        if k = (m, col, cls) then [(pick P, 1)] else st1.counters k }) := by
  rw [mutexBranch]
  rw [hce]
  simp only [elemsNonempty, List.any_nil, Bool.false_eq_true, if_false,
    Finset.sdiff_empty, ite_self, npChoice, if_neg hP]
  rfl

theorem mutexBranch_elig_eq (pick : Finset String → String)
    (st1 : FlockState) (P : Finset String) (m col cls : String)
    (hce : st1.counters (m, col, cls) ≠ [])
    (hvals : ∀ p ∈ st1.counters (m, col, cls), 1 ≤ p.2)
    (hpair : ∀ p ∈ st1.counters (m, col, cls),
      ∀ q ∈ st1.counters (m, col, cls), p.2 ≤ q.2 + 1)
    (hdr : P \ satKeys (st1.counters (m, col, cls)) ≠ ∅) :
    mutexBranch pick st1 P m col cls =
      .ok (pick (P \ satKeys (st1.counters (m, col, cls))),
        { st1 with counters := fun k =>
          if k = (m, col, cls) then
            (cIncr (st1.counters (m, col, cls))
              (pick (P \ satKeys (st1.counters (m, col, cls)))))
          else st1.counters k }) := by
  have helems := elemsNonempty_of _ hvals hce
  have hassert := maxmin_le_one _ hpair
  rw [mutexBranch]
  rw [helems]
  simp only [if_true, if_pos hassert, npChoice]
  rw [if_neg hdr, if_neg hdr]

theorem mutexBranch_drained_eq (pick : Finset String → String)
    (st1 : FlockState) (P : Finset String) (m col cls : String)
    (hce : st1.counters (m, col, cls) ≠ [])
    (hvals : ∀ p ∈ st1.counters (m, col, cls), 1 ≤ p.2)
    (hpair : ∀ p ∈ st1.counters (m, col, cls),
      ∀ q ∈ st1.counters (m, col, cls), p.2 ≤ q.2 + 1)
    (hdr : P \ satKeys (st1.counters (m, col, cls)) = ∅) (hP : P ≠ ∅) :
    mutexBranch pick st1 P m col cls =
      .ok (pick P,
        { st1 with counters := fun k =>
          if k = (m, col, cls) then
            (cIncr (st1.counters (m, col, cls)) (pick P))
          else st1.counters k }) := by
  have helems := elemsNonempty_of _ hvals hce
  have hassert := maxmin_le_one _ hpair
  rw [mutexBranch]
  rw [helems]
  simp only [if_true, if_pos hassert, npChoice]
  rw [if_pos hdr, if_neg hP]

/-- C2: the case-split contract of sample.  With the pool resolved to
`P`: resolving the pool changes no counter; a falsy mutex returns the
random choice over the full pool and leaves the counters alone; a
truthy mutex with an empty group counter draws from the full pool and
records that phrase with count 1; a truthy mutex with a non-empty
counter draws from the pool minus the phrases at the counter's maximum
and increments exactly the drawn phrase, all other groups untouched;
the random choice always lands in the set it is drawn from, and
incrementing changes exactly one key's count. -/
theorem claim_C2 (fs : String → Option String)
    (pick : Finset String → String) (root col cls : String)
    (st st1 : FlockState) (P : Finset String) (hpick : ValidPick pick)
    (hget : getPossibilities fs st (poolPath root col cls) = .ok (P, st1)) :
    (st1.counters = st.counters)
    ∧ (∀ mutex, mutexTruthy mutex = false → P.Nonempty →
        sampleF fs pick root st col cls mutex = .ok (pick P, st1))
    ∧ (∀ m, m ≠ "" → st1.counters (m, col, cls) = [] → P.Nonempty →
        sampleF fs pick root st col cls (some m) =
          .ok (pick P, { st1 with counters := fun k =>
            if k = (m, col, cls) then [(pick P, 1)] else st1.counters k }))
    ∧ (∀ m, m ≠ "" → st1.counters (m, col, cls) ≠ [] →
        (∀ p ∈ st1.counters (m, col, cls), 1 ≤ p.2) →
        (∀ p ∈ st1.counters (m, col, cls),
          ∀ q ∈ st1.counters (m, col, cls), p.2 ≤ q.2 + 1) →
        (P \ satKeys (st1.counters (m, col, cls))).Nonempty →
        sampleF fs pick root st col cls (some m) =
          .ok (pick (P \ satKeys (st1.counters (m, col, cls))),
            { st1 with counters := fun k =>
              if k = (m, col, cls) then
                (cIncr (st1.counters (m, col, cls))
                  (pick (P \ satKeys (st1.counters (m, col, cls)))))
              else st1.counters k }))
    ∧ (∀ s : Finset String, s.Nonempty → pick s ∈ s)
    ∧ (∀ c : Counter, ∀ k : String, cVal (cIncr c k) k = cVal c k + 1 ∧
        ∀ k', k' ≠ k → cVal (cIncr c k) k' = cVal c k') := by
  refine ⟨(getPoss_ok fs st _ P st1 hget).1, ?_, ?_, ?_, hpick, ?_⟩
  · intro mutex hmf hP
    exact sampleF_falsy fs pick root st col cls mutex P st1 hget hmf
      (Finset.nonempty_iff_ne_empty.1 hP)
  · intro m hm hce hP
    rw [sampleF_truthy fs pick root st col cls m P st1 hget hm]
    exact mutexBranch_empty_eq pick st1 P m col cls hce
      (Finset.nonempty_iff_ne_empty.1 hP)
  · intro m hm hce hvals hpair helig
    rw [sampleF_truthy fs pick root st col cls m P st1 hget hm]
    exact mutexBranch_elig_eq pick st1 P m col cls hce hvals hpair
      (Finset.nonempty_iff_ne_empty.1 helig)
  · intro c k
    exact ⟨cVal_cIncr_self c k, fun k' hk => cVal_cIncr_other c k k' hk⟩

theorem claim_C2_witness :
    sampleF (fun _ => none) pickW "r" stC2 "c" "a" (some "m") =
      .ok (pickW {"x", "y"}, { stC2 with counters := fun k =>
        (if k = ("m", "c", "a") then [(pickW {"x", "y"}, 1)]
         else stC2.counters k) }) :=
  (claim_C2 (fun _ => none) pickW "r" "c" "a" stC2 stC2 {"x", "y"}
      pickW_valid rfl).2.2.1 "m" (by decide) rfl ⟨"x", by decide⟩

/-- C3, amended: in a mutex-constrained draw the eligible set can be
empty only when every phrase of the pool is a counter key sitting at
the counter's maximal use-count; and in that case, provided the pool is
non-empty, sample does not raise an error: it falls back to the full
pool, still returns a phrase of it and increments that phrase's count.
(As literally stated the claim fails when the pool itself is empty:
the fallback then hands the empty pool to np.random.choice, which
raises — see the counterexample.) -/
theorem claim_C3 (fs : String → Option String)
    (pick : Finset String → String) (root col cls m : String)
    (st st1 : FlockState) (P : Finset String) (hpick : ValidPick pick)
    (hm : m ≠ "")
    (hget : getPossibilities fs st (poolPath root col cls) = .ok (P, st1))
    (hnd : (cKeys (st1.counters (m, col, cls))).Nodup)
    (hvals : ∀ p ∈ st1.counters (m, col, cls), 1 ≤ p.2)
    (hpair : ∀ p ∈ st1.counters (m, col, cls),
      ∀ q ∈ st1.counters (m, col, cls), p.2 ≤ q.2 + 1)
    (hdr : P \ satKeys (st1.counters (m, col, cls)) = ∅) :
    (∀ x ∈ P, x ∈ cKeys (st1.counters (m, col, cls)) ∧
      cVal (st1.counters (m, col, cls)) x =
        maxVal (st1.counters (m, col, cls)))
    ∧ (P.Nonempty →
        sampleF fs pick root st col cls (some m) =
          .ok (pick P, { st1 with counters := fun k =>
            (if k = (m, col, cls) then
              cIncr (st1.counters (m, col, cls)) (pick P)
             else st1.counters k) })
        ∧ pick P ∈ P
        ∧ cVal (cIncr (st1.counters (m, col, cls)) (pick P)) (pick P) =
            cVal (st1.counters (m, col, cls)) (pick P) + 1) := by
  have hsat : ∀ x ∈ P, x ∈ satKeys (st1.counters (m, col, cls)) := by
    intro x hx
    by_contra hnx
    have hmem : x ∈ P \ satKeys (st1.counters (m, col, cls)) :=
      Finset.mem_sdiff.2 ⟨hx, hnx⟩
    rw [hdr] at hmem
    exact absurd hmem (Finset.not_mem_empty x)
  constructor
  · intro x hx
    obtain ⟨q, hq, hq1, hq2⟩ := (mem_satKeys _ x).1 (hsat x hx)
    have hxk : x ∈ cKeys (st1.counters (m, col, cls)) :=
      List.mem_map.2 ⟨q, hq, hq1⟩
    refine ⟨hxk, ?_⟩
    obtain ⟨a, ha, hak⟩ := find?_key_of_mem _ x hxk
    have haq : a = q :=
      nodup_keys_inj _ hnd a q (List.mem_of_find?_eq_some ha) hq
        (hak.trans hq1.symm)
    rw [cVal, ha, haq]
    exact hq2
  · intro hP
    have hce : st1.counters (m, col, cls) ≠ [] := by
      intro hnil
      obtain ⟨x, hx⟩ := hP
      have := hsat x hx
      rw [hnil] at this
      simp [satKeys] at this
    refine ⟨?_, hpick P hP, cVal_cIncr_self _ _⟩
    rw [sampleF_truthy fs pick root st col cls m P st1 hget hm]
    exact mutexBranch_drained_eq pick st1 P m col cls hce hvals hpair hdr
      (Finset.nonempty_iff_ne_empty.1 hP)

theorem claim_C3_witness :
    sampleF (fun _ => none) pickW "r" stC3 "c" "a" (some "m") =
      .ok (pickW {"x", "y"}, { stC3 with counters := fun k =>
        (if k = ("m", "c", "a") then
          cIncr (stC3.counters ("m", "c", "a")) (pickW {"x", "y"})
         else stC3.counters k) })
    ∧ pickW {"x", "y"} ∈ ({"x", "y"} : Finset String)
    ∧ cVal (cIncr (stC3.counters ("m", "c", "a")) (pickW {"x", "y"}))
        (pickW {"x", "y"}) =
      cVal (stC3.counters ("m", "c", "a")) (pickW {"x", "y"}) + 1 :=
  (claim_C3 (fun _ => none) pickW "r" "c" "a" "m" stC3 stC3 {"x", "y"}
      pickW_valid (by decide) rfl (by decide) (by decide) (by decide)
      (by decide)).2 ⟨"x", by decide⟩

/-- Counterexample to C3 as stated: a pool file of blank lines loads as
the empty pool; the eligible set of a mutex-constrained draw is then
empty while every phrase of the pool (vacuously) has the same maximal
use-count, yet sample raises the ValueError of np.random.choice on the
empty fallback pool instead of returning a phrase. -/
theorem claim_C3_cex :
    poolOfText "\n \n" = ∅ ∧
    sampleF fsEmptyPool pickW "r" initState "c" "a" (some "m") =
      .error "ValueError: a must be non-empty" := by
  constructor
  · decide
  · rfl

theorem mutexBranch_cache (pick : Finset String → String)
    (st1 : FlockState) (P : Finset String) (m col cls r : String)
    (st' : FlockState)
    (h : mutexBranch pick st1 P m col cls = .ok (r, st')) :
    st'.cache = st1.cache := by
  cases helems : elemsNonempty (st1.counters (m, col, cls)) with
  | false =>
    rw [mutexBranch] at h
    rw [helems] at h
    simp only [Bool.false_eq_true, if_false, Finset.sdiff_empty, ite_self,
      npChoice] at h
    by_cases hP : P = ∅
    · rw [if_pos hP] at h
      exact Except.noConfusion h
    · rw [if_neg hP] at h
      simp only [Except.ok.injEq, Prod.mk.injEq] at h
      obtain ⟨rfl, rfl⟩ := h
      rfl
  | true =>
    rw [mutexBranch] at h
    rw [helems] at h
    by_cases hassert : maxVal (st1.counters (m, col, cls)) -
        minVal (st1.counters (m, col, cls)) ≤ 1
    · simp only [if_true, if_pos hassert, npChoice] at h
      by_cases hdr : P \ satKeys (st1.counters (m, col, cls)) = ∅
      · rw [if_pos hdr] at h
        by_cases hP : P = ∅
        · rw [if_pos hP] at h
          exact Except.noConfusion h
        · rw [if_neg hP] at h
          simp only [Except.ok.injEq, Prod.mk.injEq] at h
          obtain ⟨rfl, rfl⟩ := h
          rfl
      · rw [if_neg hdr, if_neg hdr] at h
        simp only [Except.ok.injEq, Prod.mk.injEq] at h
        obtain ⟨rfl, rfl⟩ := h
        rfl
    · simp only [if_true, if_neg hassert] at h
      exact Except.noConfusion h

theorem sampleF_cache_mono (fs : String → Option String)
    (pick : Finset String → String) (root : String) (st : FlockState)
    (col cls : String) (mutex : Option String) (r : String)
    (st' : FlockState)
    (h : sampleF fs pick root st col cls mutex = .ok (r, st')) :
    ∀ p Q, st.cache p = some Q → st'.cache p = some Q := by
  intro p Q hq
  cases hg : getPossibilities fs st (poolPath root col cls) with
  | error e =>
    simp only [sampleF, hg] at h
    exact Except.noConfusion h
  | ok v =>
    obtain ⟨P, st1⟩ := v
    obtain ⟨hctr, hcap, hmono⟩ := getPoss_ok fs st _ P st1 hg
    simp only [sampleF, hg] at h
    split at h
    · split at h
      · exact Except.noConfusion h
      · simp only [Except.ok.injEq, Prod.mk.injEq] at h
        obtain ⟨rfl, rfl⟩ := h
        exact hmono p Q hq
    · have hcache := mutexBranch_cache pick st1 P _ col cls r st' h
      rw [hcache]
      exact hmono p Q hq

/-- C9: the phrase pool for (category, classLabel) is loaded from the
file at <root>/<category>/<classLabel>.txt as the set of distinct
non-empty stripped lines of its text; the file is read at most once per
path per fetcher lifetime — a sample whose path is cached is
independent of the filesystem and a cached pool is never overwritten —
and sample fails with a file-not-found error naming the path when the
file is absent. -/
theorem claim_C9 (fs fs' : String → Option String)
    (pick : Finset String → String) (root col cls : String)
    (mutex : Option String) (st st' : FlockState) (r t : String)
    (P Q : Finset String) (p : String) :
    (st.cache (poolPath root col cls) = none →
      fs (poolPath root col cls) = some t →
      getPossibilities fs st (poolPath root col cls) =
        .ok (poolOfText t, { st with cache := fun q =>
          (if q = poolPath root col cls then some (poolOfText t)
           else st.cache q) })
      ∧ ∀ x, x ∈ poolOfText t ↔
          (∃ l ∈ pySplitLines t, pyStrip l = x) ∧ x ≠ "")
    ∧ (st.cache (poolPath root col cls) = some P →
        getPossibilities fs st (poolPath root col cls) = .ok (P, st) ∧
        sampleF fs pick root st col cls mutex =
          sampleF fs' pick root st col cls mutex)
    ∧ (sampleF fs pick root st col cls mutex = .ok (r, st') →
        st.cache p = some Q → st'.cache p = some Q)
    ∧ (st.cache (poolPath root col cls) = none →
        fs (poolPath root col cls) = none →
        sampleF fs pick root st col cls mutex =
          .error ("FileNotFoundError: " ++ poolPath root col cls)) := by
  refine ⟨?_, ?_, ?_, ?_⟩
  · intro hc hf
    constructor
    · simp only [getPossibilities, hc, hf]
    · intro x
      simp only [poolOfText, List.mem_toFinset, List.mem_filter,
        List.mem_map, decide_eq_true_eq]
  · intro hc
    have hget : ∀ g : String → Option String,
        getPossibilities g st (poolPath root col cls) = .ok (P, st) :=
      fun g => by simp only [getPossibilities, hc]
    refine ⟨hget fs, ?_⟩
    rw [sampleF, sampleF, hget fs, hget fs']
  · intro hcall hq
    exact sampleF_cache_mono fs pick root st col cls mutex r st' hcall p Q hq
  · intro hc hf
    rw [sampleF]
    simp only [getPossibilities, hc, hf]

theorem claim_C9_witness :
    (initState.cache (poolPath "r" "c" "a") = none →
      fsC4 (poolPath "r" "c" "a") = some "a\nb\nc" →
      getPossibilities fsC4 initState (poolPath "r" "c" "a") =
        .ok (poolOfText "a\nb\nc", { initState with cache := fun q =>
          (if q = poolPath "r" "c" "a" then some (poolOfText "a\nb\nc")
           else initState.cache q) })
      ∧ ∀ x, x ∈ poolOfText "a\nb\nc" ↔
          (∃ l ∈ pySplitLines "a\nb\nc", pyStrip l = x) ∧ x ≠ "")
    ∧ (initState.cache (poolPath "r" "c" "a") = some {"x"} →
        getPossibilities fsC4 initState (poolPath "r" "c" "a") =
          .ok ({"x"}, initState) ∧
        sampleF fsC4 pickW "r" initState "c" "a" none =
          sampleF (fun _ => none) pickW "r" initState "c" "a" none)
    ∧ (sampleF fsC4 pickW "r" initState "c" "a" none =
          .ok ("a", initState) →
        initState.cache "q" = some {"x"} → initState.cache "q" = some {"x"})
    ∧ (initState.cache (poolPath "r" "c" "a") = none →
        fsC4 (poolPath "r" "c" "a") = none →
        sampleF fsC4 pickW "r" initState "c" "a" none =
          .error ("FileNotFoundError: " ++ poolPath "r" "c" "a")) :=
  claim_C9 fsC4 (fun _ => none) pickW "r" "c" "a" none initState initState
    "a" "a\nb\nc" {"x"} {"x"} "q"

/-! ## The six-draw equidistribution property -/

theorem cVal_entry (c : Counter) (x : String) (hx : x ∈ cKeys c) :
    (x, cVal c x) ∈ c := by
  obtain ⟨a, ha, hak⟩ := find?_key_of_mem c x hx
  have hmem := List.mem_of_find?_eq_some ha
  rw [cVal, ha]
  rw [← hak]
  exact hmem

theorem cVal_zero_of_not_mem (c : Counter) (x : String) (hx : x ∉ cKeys c) :
    cVal c x = 0 := by
  rw [cVal, find?_none_of_not_mem c x hx]
  rfl

theorem cVal_le_of_mem (c : Counter) (x : String)
    (hb : ∀ p ∈ c, p.2 = 1) : cVal c x ≤ 1 := by
  by_cases hx : x ∈ cKeys c
  · exact le_of_eq (hb (x, cVal c x) (cVal_entry c x hx))
  · rw [cVal_zero_of_not_mem c x hx]
    omega

theorem sum_count_eq_length (rs : List String) (P : Finset String)
    (h : ∀ x ∈ rs, x ∈ P) : (∑ x ∈ P, rs.count x) = rs.length := by
  induction rs with
  | nil => simp
  | cons r rs ih =>
    have hr : r ∈ P := h r (List.mem_cons_self _ _)
    have hrs : ∀ x ∈ rs, x ∈ P := fun x hx => h x (List.mem_cons_of_mem _ hx)
    have hcount : ∀ x : String,
        (r :: rs).count x = rs.count x + if x = r then 1 else 0 := by
      intro x
      by_cases hx : x = r
      · subst hx
        simp [List.count_cons]
      · simp [List.count_cons, hx]
    calc (∑ x ∈ P, (r :: rs).count x)
        = ∑ x ∈ P, (rs.count x + if x = r then 1 else 0) :=
          Finset.sum_congr rfl (fun x _ => hcount x)
      _ = (∑ x ∈ P, rs.count x) + ∑ x ∈ P, (if x = r then 1 else 0) :=
          Finset.sum_add_distrib
      _ = rs.length + 1 := by
          rw [ih hrs, Finset.sum_ite_eq' P r (fun _ => 1), if_pos hr]
      _ = (r :: rs).length := by simp

theorem sample_step_ok (fs : String → Option String)
    (pick : Finset String → String) (root col cls m t : String)
    (P : Finset String) (st : FlockState) (hpick : ValidPick pick)
    (hm : m ≠ "") (hPne : P ≠ ∅) (hinv : GInv root st)
    (hcache : st.cache (poolPath root col cls) = some P ∨
      st.cache (poolPath root col cls) = none ∧
        fs (poolPath root col cls) = some t ∧ poolOfText t = P) :
    ∃ r st', sampleF fs pick root st col cls (some m) = .ok (r, st') ∧
      GInv root st' ∧ st'.cache (poolPath root col cls) = some P ∧
      r ∈ P ∧
      st'.counters (m, col, cls) = cIncr (st.counters (m, col, cls)) r := by
  obtain ⟨st1, hget, hctr1, hcap1⟩ : ∃ st1,
      getPossibilities fs st (poolPath root col cls) = .ok (P, st1) ∧
      st1.counters = st.counters ∧
      st1.cache (poolPath root col cls) = some P := by
    rcases hcache with hc | ⟨hc, hf, hPt⟩
    · exact ⟨st, by simp only [getPossibilities, hc], rfl, hc⟩
    · refine ⟨{ st with cache := fun p =>
        (if p = poolPath root col cls then some (poolOfText t)
         else st.cache p) }, ?_, rfl, ?_⟩
      · simp only [getPossibilities, hc, hf, hPt]
      · simp [hPt]
  have hc1 : st1.counters (m, col, cls) = [] ∨
      CtrOK P (st1.counters (m, col, cls)) := by
    rcases hinv m col cls with hce | ⟨P', hP', hok⟩
    · exact Or.inl (by rw [hctr1]; exact hce)
    · rcases hcache with hc | ⟨hc, _, _⟩
      · rw [hc] at hP'
        obtain rfl : P = P' := by
          cases hP'
          rfl
        exact Or.inr (by rw [hctr1]; exact hok)
      · rw [hc] at hP'
        exact Option.noConfusion hP'
  obtain ⟨r, st', heq⟩ : ∃ r st',
      sampleF fs pick root st col cls (some m) = .ok (r, st') := by
    rw [sampleF_truthy fs pick root st col cls m P st1 hget hm]
    by_cases hce : st1.counters (m, col, cls) = []
    · exact ⟨_, _, mutexBranch_empty_eq pick st1 P m col cls hce hPne⟩
    · have hok : CtrOK P (st1.counters (m, col, cls)) := by
        rcases hc1 with hc1 | hc1
        · exact absurd hc1 hce
        · exact hc1
      by_cases hdr : P \ satKeys (st1.counters (m, col, cls)) = ∅
      · exact ⟨_, _, mutexBranch_drained_eq pick st1 P m col cls hce
          (fun p hp => (hok.2.1 p hp).1) hok.2.2.1 hdr hPne⟩
      · exact ⟨_, _, mutexBranch_elig_eq pick st1 P m col cls hce
          (fun p hp => (hok.2.1 p hp).1) hok.2.2.1 hdr⟩
  have hmb : mutexBranch pick st1 P m col cls = .ok (r, st') := by
    rw [← sampleF_truthy fs pick root st col cls m P st1 hget hm]
    exact heq
  obtain ⟨hrP, hcache', hmkey, _, _⟩ :=
    mutexBranch_ok pick hpick st1 P m col cls r st' hc1 hmb
  have hfacts := sampleF_preserves fs pick root st col cls (some m) r st'
    hpick hinv heq
  refine ⟨r, st', heq, hfacts.1, ?_, hrP, ?_⟩
  · rw [hcache']
    exact hcap1
  · rw [hmkey, hctr1]

theorem runSeq_spec (fs : String → Option String)
    (root col cls m t : String) (P : Finset String) (hm : m ≠ "")
    (hPne : P ≠ ∅) (picks : List (Finset String → String)) :
    ∀ st : FlockState, (∀ pk ∈ picks, ValidPick pk) → GInv root st →
    (st.cache (poolPath root col cls) = some P ∨
      st.cache (poolPath root col cls) = none ∧
        fs (poolPath root col cls) = some t ∧ poolOfText t = P) →
    ∃ rs st', runSeq fs root col cls m picks st = .ok (rs, st') ∧
      rs.length = picks.length ∧ (∀ x ∈ rs, x ∈ P) ∧
      GInv root st' ∧
      (st'.cache (poolPath root col cls) = some P ∨
        st'.cache (poolPath root col cls) = none ∧
          fs (poolPath root col cls) = some t ∧ poolOfText t = P) ∧
      ∀ x, rs.count x + cVal (st.counters (m, col, cls)) x =
        cVal (st'.counters (m, col, cls)) x := by
  induction picks with
  | nil =>
    intro st _ hinv hcache
    exact ⟨[], st, rfl, rfl, by simp, hinv, hcache, fun x => by simp⟩
  | cons pick picks ih =>
    intro st hvalid hinv hcache
    obtain ⟨r, st1, heq, hinv1, hcap1, hrP, hupd⟩ :=
      sample_step_ok fs pick root col cls m t P st
        (hvalid pick (List.mem_cons_self _ _)) hm hPne hinv hcache
    obtain ⟨rs, st', hrun, hlen, hmem, hinv', hcap', hcnt⟩ :=
      ih st1 (fun pk hpk => hvalid pk (List.mem_cons_of_mem _ hpk)) hinv1
        (Or.inl hcap1)
    refine ⟨r :: rs, st', ?_, by simp [hlen], ?_, hinv', hcap', ?_⟩
    · simp only [runSeq, heq, hrun]
    · intro x hx
      rcases List.mem_cons.1 hx with rfl | hx
      · exact hrP
      · exact hmem x hx
    · intro x
      have hstep : cVal (st1.counters (m, col, cls)) x =
          cVal (st.counters (m, col, cls)) x + if x = r then 1 else 0 := by
        rw [hupd]
        by_cases hx : x = r
        · subst hx
          rw [cVal_cIncr_self, if_pos rfl]
        · rw [cVal_cIncr_other _ _ _ hx, if_neg hx]
          omega
      have hcnt' := hcnt x
      have hcountc : (r :: rs).count x =
          rs.count x + if x = r then 1 else 0 := by
        by_cases hx : x = r
        · subst hx
          simp [List.count_cons]
        · simp [List.count_cons, hx]
      rw [hcountc]
      omega

/-- C4: for a pool file whose distinct non-empty stripped lines are
exactly the three distinct phrases a, b, c, every sequence of six
consecutive mutex-constrained draws on the same (category, classLabel)
with the same non-empty mutex — whatever the outcomes of the uniform
random choices — succeeds and returns each of a, b, c exactly twice. -/
theorem claim_C4 (fs : String → Option String) (root col cls m t : String)
    (a b c : String) (picks : List (Finset String → String))
    (hm : m ≠ "") (hfs : fs (poolPath root col cls) = some t)
    (hP : poolOfText t = {a, b, c}) (hab : a ≠ b) (hac : a ≠ c)
    (hbc : b ≠ c) (hlen : picks.length = 6)
    (hvalid : ∀ pk ∈ picks, ValidPick pk) :
    ∃ rs st', runSeq fs root col cls m picks initState = .ok (rs, st') ∧
      rs.count a = 2 ∧ rs.count b = 2 ∧ rs.count c = 2 := by
  have hPne : ({a, b, c} : Finset String) ≠ ∅ := by
    intro h0
    have ha : a ∈ ({a, b, c} : Finset String) := by simp
    rw [h0] at ha
    exact absurd ha (Finset.not_mem_empty a)
  have hcard : ({a, b, c} : Finset String).card = 3 := by
    rw [Finset.card_insert_of_not_mem (by simp [hab, hac]),
      Finset.card_insert_of_not_mem (by simp [hbc]), Finset.card_singleton]
  have hinit : GInv root initState := fun _ _ _ => Or.inl rfl
  obtain ⟨rs, st', hrun, hlen', hmem, hinv', hcap', hcnt⟩ :=
    runSeq_spec fs root col cls m t {a, b, c} hm hPne picks initState
      hvalid hinit (Or.inr ⟨rfl, hfs, hP⟩)
  have hcount : ∀ x, rs.count x = cVal (st'.counters (m, col, cls)) x := by
    intro x
    have hx := hcnt x
    have h0 : cVal (initState.counters (m, col, cls)) x = 0 := rfl
    omega
  have hsum : (∑ x ∈ ({a, b, c} : Finset String),
      cVal (st'.counters (m, col, cls)) x) = 6 := by
    have h1 := sum_count_eq_length rs {a, b, c} hmem
    rw [hlen', hlen] at h1
    rw [← h1]
    exact Finset.sum_congr rfl (fun x _ => (hcount x).symm)
  have hcne : st'.counters (m, col, cls) ≠ [] := by
    intro h0
    rw [h0] at hsum
    have hz : (∑ x ∈ ({a, b, c} : Finset String),
        cVal ([] : Counter) x) = 0 := by
      apply Finset.sum_eq_zero
      intro x _
      rfl
    rw [hz] at hsum
    exact absurd hsum (by omega)
  have hok : CtrOK {a, b, c} (st'.counters (m, col, cls)) := by
    rcases hinv' m col cls with h0 | ⟨P', hP', hok⟩
    · exact absurd h0 hcne
    · rcases hcap' with hcap | ⟨hcap, _, _⟩
      · rw [hcap] at hP'
        obtain rfl : ({a, b, c} : Finset String) = P' := by
          cases hP'
          rfl
        exact hok
      · rw [hcap] at hP'
        exact Option.noConfusion hP'
  obtain ⟨hnd, hvk, hpair, hund⟩ := hok
  have halldrawn : ∀ y ∈ ({a, b, c} : Finset String),
      y ∈ cKeys (st'.counters (m, col, cls)) := by
    by_contra hno
    push_neg at hno
    obtain ⟨y, hy, hyk⟩ := hno
    have hall := hund ⟨y, hy, hyk⟩
    have hle : ∀ x ∈ ({a, b, c} : Finset String),
        cVal (st'.counters (m, col, cls)) x ≤ 1 :=
      fun x _ => cVal_le_of_mem _ x hall
    have hbound : (∑ x ∈ ({a, b, c} : Finset String),
        cVal (st'.counters (m, col, cls)) x) ≤ 3 := by
      calc (∑ x ∈ ({a, b, c} : Finset String),
          cVal (st'.counters (m, col, cls)) x)
          ≤ ∑ _x ∈ ({a, b, c} : Finset String), 1 := Finset.sum_le_sum hle
        _ = 3 := by rw [Finset.sum_const, hcard]; simp
    rw [hsum] at hbound
    exact absurd hbound (by omega)
  have hpairP : ∀ x ∈ ({a, b, c} : Finset String),
      ∀ y ∈ ({a, b, c} : Finset String),
      cVal (st'.counters (m, col, cls)) x ≤
        cVal (st'.counters (m, col, cls)) y + 1 := by
    intro x hx y hy
    exact hpair _ (cVal_entry _ x (halldrawn x hx))
      _ (cVal_entry _ y (halldrawn y hy))
  have hpin : ∀ x ∈ ({a, b, c} : Finset String),
      cVal (st'.counters (m, col, cls)) x = 2 := by
    intro x hx
    have hcarde : (({a, b, c} : Finset String).erase x).card = 2 := by
      rw [Finset.card_erase_of_mem hx, hcard]
    have hsplit : cVal (st'.counters (m, col, cls)) x +
        (∑ y ∈ ({a, b, c} : Finset String).erase x,
          cVal (st'.counters (m, col, cls)) y) = 6 := by
      rw [Finset.add_sum_erase _ _ hx]
      exact hsum
    have hub : (∑ y ∈ ({a, b, c} : Finset String).erase x,
        cVal (st'.counters (m, col, cls)) y) ≤
        2 * (cVal (st'.counters (m, col, cls)) x + 1) := by
      calc (∑ y ∈ ({a, b, c} : Finset String).erase x,
          cVal (st'.counters (m, col, cls)) y)
          ≤ ∑ _y ∈ ({a, b, c} : Finset String).erase x,
              (cVal (st'.counters (m, col, cls)) x + 1) :=
            Finset.sum_le_sum (fun y hy =>
              hpairP y (Finset.mem_of_mem_erase hy) x hx)
        _ = 2 * (cVal (st'.counters (m, col, cls)) x + 1) := by
            rw [Finset.sum_const, hcarde]
            simp [mul_comm]
    have hlb : 2 * cVal (st'.counters (m, col, cls)) x ≤
        (∑ y ∈ ({a, b, c} : Finset String).erase x,
          cVal (st'.counters (m, col, cls)) y) + 2 := by
      have hstep : (∑ _y ∈ ({a, b, c} : Finset String).erase x,
          cVal (st'.counters (m, col, cls)) x) ≤
          ∑ y ∈ ({a, b, c} : Finset String).erase x,
            (cVal (st'.counters (m, col, cls)) y + 1) :=
        Finset.sum_le_sum (fun y hy =>
          hpairP x hx y (Finset.mem_of_mem_erase hy))
      rw [Finset.sum_const, hcarde, Finset.sum_add_distrib,
        Finset.sum_const, hcarde] at hstep
      simpa [mul_comm] using hstep
    omega
  exact ⟨rs, st', hrun,
    by rw [hcount a]; exact hpin a (by simp),
    by rw [hcount b]; exact hpin b (by simp),
    by rw [hcount c]; exact hpin c (by simp)⟩

theorem claim_C4_witness :
    ∃ rs st', runSeq fsC4 "r" "c" "a" "m1" (List.replicate 6 pickW)
        initState = .ok (rs, st') ∧
      rs.count "a" = 2 ∧ rs.count "b" = 2 ∧ rs.count "c" = 2 :=
  claim_C4 fsC4 "r" "c" "a" "m1" "a\nb\nc" "a" "b" "c"
    (List.replicate 6 pickW) (by decide) rfl (by decide) (by decide)
    (by decide) (by decide) rfl
    (fun pk hpk => by rw [List.eq_of_mem_replicate hpk]; exact pickW_valid)

/-! ## Row seeding and the flock call of the row binder -/

/-- C5, amended: for every roster row, fetch_row seeds the slot mapping
with ten fixed entries — first_name, last_name, and exactly eight
gender-derived pronoun-form slots (he/she, him/her, his/her,
himself/herself and their capitalized forms) — such that gender M
yields he/him/his/himself (and He/Him/His/Himself) and gender F yields
she/her/her/herself (and She/Her/Her/Herself).  (The claim counts ten
pronoun-form entries; the seed has ten entries in total of which eight
are pronoun forms — see the counterexample.) -/
theorem claim_C5 (row : Row) :
    ((fetchRowSeed row).map Prod.fst =
      ["first_name", "last_name", "he", "him", "his", "himself",
       "He", "Him", "His", "Himself"])
    ∧ (fetchRowSeed row).length = 10
    ∧ ((fetchRowSeed row).filter (fun p =>
        p.1 ∉ (["first_name", "last_name"] : List String))).length = 8
    ∧ (row.gender = "M" →
        (fetchRowSeed row).drop 2 =
          [("he", .atom "he"), ("him", .atom "him"), ("his", .atom "his"),
           ("himself", .atom "himself"), ("He", .atom "He"),
           ("Him", .atom "Him"), ("His", .atom "His"),
           ("Himself", .atom "Himself")])
    ∧ (row.gender = "F" →
        (fetchRowSeed row).drop 2 =
          [("he", .atom "she"), ("him", .atom "her"), ("his", .atom "her"),
           ("himself", .atom "herself"), ("He", .atom "She"),
           ("Him", .atom "Her"), ("His", .atom "Her"),
           ("Himself", .atom "Herself")]) := by
  refine ⟨rfl, rfl, rfl, ?_, ?_⟩
  · intro hg
    simp [fetchRowSeed, hg]
  · intro hg
    simp [fetchRowSeed, hg]

/-- Counterexample to C5 as stated: at a concrete row the seed mapping
holds exactly eight pronoun-form entries derived from the gender (the
entries other than first_name and last_name), not ten. -/
theorem claim_C5_cex :
    ((fetchRowSeed rowM).filter (fun p =>
      p.1 ∉ (["first_name", "last_name"] : List String))).length = 8 ∧
    (8 : Nat) ≠ 10 :=
  ⟨rfl, by decide⟩

/-- C6: concrete evaluation of the standard row-binding call chain.
fetch_flock with type='sentence' on the participation column of a row
with grade B and mutex " m1 " calls the flock fetcher with tag
"sent_participation", category "participation", classLabel "b" (the
lower-cased grade) and the stripped mutex — but the sampled phrase is
parsed with ret_type = "paragraph": fetch_flock never forwards a
sample_type, so FlockFetcher.fetch uses its default 'paragraph'
granularity despite the 'sent' tag, contradicting the claim's
sentence-granularity clause. -/
theorem claim_C6 :
    (∃ st', fetchFlockRow fsC6 (fun _ => "good effort") "r" initState rowM
        "participation" "sentence" =
      .ok (("sent_participation",
        Fillable.block "paragraph" [Fillable.parsed "paragraph" "good effort"]),
        st'))
    ∧ ("paragraph" : String) ≠ "sentence" :=
  ⟨⟨_, rfl⟩, by decide⟩

/-! ## Roster validation -/

theorem strIn_parts (n pre suf : String) : strIn n (pre ++ n ++ suf) :=
  ⟨pre.data, suf.data, by simp [String.data_append]⟩

theorem strIn_suffix_part (n pre : String) : strIn n (pre ++ n) :=
  ⟨pre.data, [], by simp [String.data_append]⟩

theorem strIn_trans (a b c : String) (h1 : strIn a b) (h2 : strIn b c) :
    strIn a c :=
  List.IsInfix.trans h1 h2

theorem strIn_extend (n mid pre suf : String) (h : strIn n mid) :
    strIn n (pre ++ mid ++ suf) :=
  strIn_trans n mid _ h (strIn_parts mid pre suf)

theorem strIn_extend_right (n mid pre : String) (h : strIn n mid) :
    strIn n (pre ++ mid) :=
  strIn_trans n mid _ h (strIn_suffix_part mid pre)

theorem strIn_joinSep (sep : String) (l : List String) (h : String)
    (hh : h ∈ l) : strIn h (joinSep sep l) := by
  induction l with
  | nil => cases hh
  | cons a t ih =>
    rcases List.mem_cons.1 hh with rfl | hh'
    · cases t with
      | nil => exact ⟨[], [], by simp [joinSep]⟩
      | cons b t' =>
        exact ⟨[], (sep ++ joinSep sep (b :: t')).data,
          by simp [joinSep, String.data_append, List.append_assoc]⟩
    · cases t with
      | nil => cases hh'
      | cons b t' =>
        obtain ⟨s, u, hs⟩ := ih hh'
        refine ⟨(a ++ sep).data ++ s, u, ?_⟩
        simp only [joinSep, String.data_append, List.append_assoc]
        rw [← hs]
        simp [String.data_append, List.append_assoc]

theorem strIn_missing_col (path c : String) (header : List String) :
    strIn c (missingMsg path c header) := by
  show c.data <:+: (missingMsg path c header).data
  refine ⟨"'".data, ("' not found in " ++ path ++
    "; check these table header again: \n " ++ joinSep ", " header).data, ?_⟩
  simp [missingMsg, String.data_append, List.append_assoc]

theorem strIn_missing_header (path c h : String) (header : List String)
    (hh : h ∈ header) : strIn h (missingMsg path c header) := by
  obtain ⟨s, u, hs⟩ := strIn_joinSep ", " header h hh
  refine ⟨("'" ++ c ++ "' not found in " ++ path ++
    "; check these table header again: \n ").data ++ s, u, ?_⟩
  simp only [missingMsg, String.data_append, List.append_assoc]
  rw [← hs]
  simp [String.data_append, List.append_assoc]

theorem checkColumnsLoop_ok (path : String) (cols : List String) :
    ∀ tbl : Table, cols.Nodup → (∀ c ∈ cols, c ∈ tbl.header) →
    checkColumnsLoop path cols tbl =
      .ok ⟨tbl.header, tbl.rows.map (fun r => normOn cols r)⟩ := by
  induction cols with
  | nil =>
    intro tbl _ _
    have hid : tbl.rows.map (fun r => normOn [] r) = tbl.rows := by
      conv_rhs => rw [← List.map_id tbl.rows]
      apply List.map_congr_left
      intro r _
      funext cX
      simp [normOn]
    rw [checkColumnsLoop, hid]
  | cons col rest ih =>
    intro tbl hnd hmem
    rw [List.nodup_cons] at hnd
    rw [checkColumnsLoop, if_pos (hmem col (List.mem_cons_self _ _)),
      ih (preprocessColumn tbl col) hnd.2
        (fun c hc => hmem c (List.mem_cons_of_mem _ hc))]
    have hrows : (preprocessColumn tbl col).rows.map (fun r => normOn rest r)
        = tbl.rows.map (fun r => normOn (col :: rest) r) := by
      rw [preprocessColumn, List.map_map]
      apply List.map_congr_left
      intro r _
      funext cX
      by_cases hcX : cX ∈ rest
      · have hne : cX ≠ col := fun he => hnd.1 (he ▸ hcX)
        simp [normOn, Function.comp, hcX, hne, List.mem_cons]
      · by_cases hcc : cX = col
        · subst hcc
          simp [normOn, Function.comp, hcX, List.mem_cons]
        · simp [normOn, Function.comp, hcX, hcc, List.mem_cons]
    rw [hrows]
    rfl

theorem checkColumnsLoop_err (path : String) (cols : List String) :
    ∀ tbl : Table, (∃ c ∈ cols, c ∉ tbl.header) →
    ∃ c, c ∈ cols ∧ c ∉ tbl.header ∧
      checkColumnsLoop path cols tbl =
        .error (missingMsg path c tbl.header) := by
  induction cols with
  | nil =>
    intro tbl h
    obtain ⟨c, hc, _⟩ := h
    cases hc
  | cons col rest ih =>
    intro tbl h
    by_cases hcol : col ∈ tbl.header
    · obtain ⟨c0, hc0, hc0n⟩ := h
      have h' : ∃ c ∈ rest, c ∉ (preprocessColumn tbl col).header := by
        rcases List.mem_cons.1 hc0 with rfl | hc0r
        · exact absurd hcol hc0n
        · exact ⟨c0, hc0r, hc0n⟩
      obtain ⟨c, hc, hcn, herr⟩ := ih (preprocessColumn tbl col) h'
      refine ⟨c, List.mem_cons_of_mem _ hc, hcn, ?_⟩
      rw [checkColumnsLoop, if_pos hcol]
      exact herr
    · exact ⟨col, List.mem_cons_self _ _, hcol, by
        rw [checkColumnsLoop, if_neg hcol]⟩

theorem gradeCheckLoop_ok (r : String → String) (cols : List String)
    (h : ∀ c ∈ cols, r c ∈ (["A", "B", "C", "D"] : List String)) :
    gradeCheckLoop r cols = .ok () := by
  induction cols with
  | nil => rfl
  | cons c rest ih =>
    rw [gradeCheckLoop, if_pos (h c (List.mem_cons_self _ _))]
    exact ih (fun c' hc' => h c' (List.mem_cons_of_mem _ hc'))

theorem gradeCheckLoop_err (r : String → String) (gpre : List String)
    (c : String) (gsuf : List String)
    (hpass : ∀ c' ∈ gpre, r c' ∈ (["A", "B", "C", "D"] : List String))
    (hfail : r c ∉ (["A", "B", "C", "D"] : List String)) :
    gradeCheckLoop r (gpre ++ c :: gsuf) = .error (gradeMsg c r) := by
  induction gpre with
  | nil => rw [List.nil_append, gradeCheckLoop, if_neg hfail]
  | cons g gpre ih =>
    rw [List.cons_append, gradeCheckLoop,
      if_pos (hpass g (List.mem_cons_self _ _))]
    exact ih (fun c' hc' => hpass c' (List.mem_cons_of_mem _ hc'))

theorem checkRowsLoop_gender_err (header : List String)
    (pre : List (String → String)) (bad : String → String)
    (rest : List (String → String))
    (hpass : ∀ r ∈ pre, r "gender" ∈ (["M", "F"] : List String) ∧
      ∀ c ∈ gradeColumns, r c ∈ (["A", "B", "C", "D"] : List String))
    (hg : bad "gender" ∉ (["M", "F"] : List String)) :
    checkRowsLoop header (pre ++ bad :: rest) =
      .error (genderMsg header bad) := by
  induction pre with
  | nil => rw [List.nil_append, checkRowsLoop, if_neg hg]
  | cons r0 pre ih =>
    have h0 := hpass r0 (List.mem_cons_self _ _)
    rw [List.cons_append, checkRowsLoop, if_pos h0.1,
      gradeCheckLoop_ok r0 gradeColumns h0.2]
    exact ih (fun r hr => hpass r (List.mem_cons_of_mem _ hr))

theorem checkRowsLoop_grade_err (header : List String)
    (pre : List (String → String)) (bad : String → String)
    (rest : List (String → String)) (gpre : List String) (c : String)
    (gsuf : List String)
    (hpass : ∀ r ∈ pre, r "gender" ∈ (["M", "F"] : List String) ∧
      ∀ c' ∈ gradeColumns, r c' ∈ (["A", "B", "C", "D"] : List String))
    (hgok : bad "gender" ∈ (["M", "F"] : List String))
    (hsplit : gradeColumns = gpre ++ c :: gsuf)
    (hgpre : ∀ c' ∈ gpre, bad c' ∈ (["A", "B", "C", "D"] : List String))
    (hfail : bad c ∉ (["A", "B", "C", "D"] : List String)) :
    checkRowsLoop header (pre ++ bad :: rest) =
      .error (gradeMsg c bad) := by
  induction pre with
  | nil =>
    rw [List.nil_append, checkRowsLoop, if_pos hgok, hsplit,
      gradeCheckLoop_err bad gpre c gsuf hgpre hfail]
  | cons r0 pre ih =>
    have h0 := hpass r0 (List.mem_cons_self _ _)
    rw [List.cons_append, checkRowsLoop, if_pos h0.1,
      gradeCheckLoop_ok r0 gradeColumns h0.2]
    exact ih (fun r hr => hpass r (List.mem_cons_of_mem _ hr))

/-- C7: roster loading fails naming the missing column and the full
observed header whenever one of the seven required columns is absent;
and with all columns present, a loaded row whose normalized gender is
outside {M, F}, or whose normalized value in one of assignment,
participation, final, overall is outside {A, B, C, D}, makes loading
fail with a message carrying the row's first and last name and the
offending value (row values are compared after the strip-and-capitalize
preprocessing of set_cache). -/
theorem claim_C7 (path : String) (tbl : Table) :
    ((∃ c ∈ basicColumns, c ∉ tbl.header) →
      ∃ c, c ∈ basicColumns ∧ c ∉ tbl.header ∧
        setCacheStudent path tbl = .error (missingMsg path c tbl.header) ∧
        strIn c (missingMsg path c tbl.header) ∧
        ∀ h ∈ tbl.header, strIn h (missingMsg path c tbl.header))
    ∧ (∀ pre bad rest, tbl.rows = pre ++ bad :: rest →
        (∀ c ∈ basicColumns, c ∈ tbl.header) →
        (∀ r ∈ pre,
          normOn basicColumns r "gender" ∈ (["M", "F"] : List String) ∧
          ∀ c ∈ gradeColumns,
            normOn basicColumns r c ∈ (["A", "B", "C", "D"] : List String)) →
        normOn basicColumns bad "gender" ∉ (["M", "F"] : List String) →
        setCacheStudent path tbl =
          .error (genderMsg tbl.header (normOn basicColumns bad)) ∧
        strIn (normOn basicColumns bad "first_name")
          (genderMsg tbl.header (normOn basicColumns bad)) ∧
        strIn (normOn basicColumns bad "last_name")
          (genderMsg tbl.header (normOn basicColumns bad)) ∧
        strIn (normOn basicColumns bad "gender")
          (genderMsg tbl.header (normOn basicColumns bad)))
    ∧ (∀ pre bad rest gpre c gsuf, tbl.rows = pre ++ bad :: rest →
        (∀ c' ∈ basicColumns, c' ∈ tbl.header) →
        (∀ r ∈ pre,
          normOn basicColumns r "gender" ∈ (["M", "F"] : List String) ∧
          ∀ c' ∈ gradeColumns,
            normOn basicColumns r c' ∈ (["A", "B", "C", "D"] : List String)) →
        normOn basicColumns bad "gender" ∈ (["M", "F"] : List String) →
        gradeColumns = gpre ++ c :: gsuf →
        (∀ c' ∈ gpre,
          normOn basicColumns bad c' ∈ (["A", "B", "C", "D"] : List String)) →
        normOn basicColumns bad c ∉ (["A", "B", "C", "D"] : List String) →
        setCacheStudent path tbl =
          .error (gradeMsg c (normOn basicColumns bad)) ∧
        strIn c (gradeMsg c (normOn basicColumns bad)) ∧
        strIn (normOn basicColumns bad c)
          (gradeMsg c (normOn basicColumns bad)) ∧
        strIn (normOn basicColumns bad "first_name")
          (gradeMsg c (normOn basicColumns bad)) ∧
        strIn (normOn basicColumns bad "last_name")
          (gradeMsg c (normOn basicColumns bad))) := by
  refine ⟨?_, ?_, ?_⟩
  · intro hmiss
    obtain ⟨c, hc, hcn, herr⟩ := checkColumnsLoop_err path basicColumns tbl
      hmiss
    refine ⟨c, hc, hcn, ?_, strIn_missing_col path c tbl.header,
      fun h hh => strIn_missing_header path c h tbl.header hh⟩
    rw [setCacheStudent, herr]
  · intro pre bad rest hrows hcols hpre hbad
    have hgh : "gender" ∈ tbl.header := hcols "gender" (by decide)
    have hnorm := checkColumnsLoop_ok path basicColumns tbl (by decide) hcols
    have herr : checkRowsLoop tbl.header
        (tbl.rows.map (fun r => normOn basicColumns r)) =
        .error (genderMsg tbl.header (normOn basicColumns bad)) := by
      rw [hrows, List.map_append, List.map_cons]
      apply checkRowsLoop_gender_err
      · intro r' hr'
        obtain ⟨r, hrm, rfl⟩ := List.mem_map.1 hr'
        exact hpre r hrm
      · exact hbad
    refine ⟨?_, ?_, ?_, ?_⟩
    · simp only [setCacheStudent, hnorm, herr]
    · refine ⟨"Unknown gender ".data ++
        (rowRepr tbl.header (normOn basicColumns bad)).data ++ " for ".data,
        " ".data ++ (normOn basicColumns bad "last_name").data ++
          " found".data, ?_⟩
      simp [genderMsg, String.data_append, List.append_assoc]
    · refine ⟨"Unknown gender ".data ++
        (rowRepr tbl.header (normOn basicColumns bad)).data ++ " for ".data ++
        (normOn basicColumns bad "first_name").data ++ " ".data,
        " found".data, ?_⟩
      simp [genderMsg, String.data_append, List.append_assoc]
    · have he : ("gender" ++ " " ++ normOn basicColumns bad "gender") ∈
          tbl.header.map (fun c => c ++ " " ++ normOn basicColumns bad c) :=
        List.mem_map.2 ⟨"gender", hgh, rfl⟩
      have h2 : strIn ("gender" ++ " " ++ normOn basicColumns bad "gender")
          (rowRepr tbl.header (normOn basicColumns bad)) :=
        strIn_joinSep "\n" _ _ he
      have h3 : strIn (normOn basicColumns bad "gender")
          ("gender" ++ " " ++ normOn basicColumns bad "gender") :=
        strIn_suffix_part _ ("gender" ++ " ")
      have h4 : strIn (rowRepr tbl.header (normOn basicColumns bad))
          (genderMsg tbl.header (normOn basicColumns bad)) := by
        refine ⟨"Unknown gender ".data,
          (" for ").data ++ (normOn basicColumns bad "first_name").data ++
            " ".data ++ (normOn basicColumns bad "last_name").data ++
            " found".data, ?_⟩
        simp [genderMsg, String.data_append, List.append_assoc]
      exact strIn_trans _ _ _ h3 (strIn_trans _ _ _ h2 h4)
  · intro pre bad rest gpre c gsuf hrows hcols hpre hgok hsplit hgpre hfail
    have hnorm := checkColumnsLoop_ok path basicColumns tbl (by decide) hcols
    have herr : checkRowsLoop tbl.header
        (tbl.rows.map (fun r => normOn basicColumns r)) =
        .error (gradeMsg c (normOn basicColumns bad)) := by
      rw [hrows, List.map_append, List.map_cons]
      apply checkRowsLoop_grade_err tbl.header _ _ _ gpre c gsuf
      · intro r' hr'
        obtain ⟨r, hrm, rfl⟩ := List.mem_map.1 hr'
        exact hpre r hrm
      · exact hgok
      · exact hsplit
      · exact hgpre
      · exact hfail
    refine ⟨?_, ?_, ?_, ?_, ?_⟩
    · simp only [setCacheStudent, hnorm, herr]
    · refine ⟨"Unknown ".data,
        (" grade '").data ++ (normOn basicColumns bad c).data ++
          "' for ".data ++ (normOn basicColumns bad "first_name").data ++
          " ".data ++ (normOn basicColumns bad "last_name").data, ?_⟩
      simp [gradeMsg, String.data_append, List.append_assoc]
    · refine ⟨"Unknown ".data ++ c.data ++ " grade '".data,
        "' for ".data ++ (normOn basicColumns bad "first_name").data ++
          " ".data ++ (normOn basicColumns bad "last_name").data, ?_⟩
      simp [gradeMsg, String.data_append, List.append_assoc]
    · refine ⟨"Unknown ".data ++ c.data ++ " grade '".data ++
        (normOn basicColumns bad c).data ++ "' for ".data,
        " ".data ++ (normOn basicColumns bad "last_name").data, ?_⟩
      simp [gradeMsg, String.data_append, List.append_assoc]
    · refine ⟨"Unknown ".data ++ c.data ++ " grade '".data ++
        (normOn basicColumns bad c).data ++ "' for ".data ++
        (normOn basicColumns bad "first_name").data ++ " ".data, [], ?_⟩
      simp [gradeMsg, String.data_append, List.append_assoc]

theorem claim_C7_witness :
    (∃ c, c ∈ basicColumns ∧ c ∉ tblMissing.header ∧
      setCacheStudent "eval.csv" tblMissing =
        .error (missingMsg "eval.csv" c tblMissing.header) ∧
      strIn c (missingMsg "eval.csv" c tblMissing.header) ∧
      ∀ h ∈ tblMissing.header,
        strIn h (missingMsg "eval.csv" c tblMissing.header))
    ∧ (setCacheStudent "eval.csv" tblX =
        .error (genderMsg tblX.header (normOn basicColumns rowX)) ∧
      strIn (normOn basicColumns rowX "first_name")
        (genderMsg tblX.header (normOn basicColumns rowX)) ∧
      strIn (normOn basicColumns rowX "last_name")
        (genderMsg tblX.header (normOn basicColumns rowX)) ∧
      strIn (normOn basicColumns rowX "gender")
        (genderMsg tblX.header (normOn basicColumns rowX)))
    ∧ (setCacheStudent "eval.csv" tblE =
        .error (gradeMsg "final" (normOn basicColumns rowE)) ∧
      strIn "final" (gradeMsg "final" (normOn basicColumns rowE)) ∧
      strIn (normOn basicColumns rowE "final")
        (gradeMsg "final" (normOn basicColumns rowE)) ∧
      strIn (normOn basicColumns rowE "first_name")
        (gradeMsg "final" (normOn basicColumns rowE)) ∧
      strIn (normOn basicColumns rowE "last_name")
        (gradeMsg "final" (normOn basicColumns rowE))) :=
  ⟨(claim_C7 "eval.csv" tblMissing).1 ⟨"overall", by decide, by decide⟩,
   (claim_C7 "eval.csv" tblX).2.1 [] rowX [] rfl (by decide)
     (fun r hr => absurd hr (List.not_mem_nil r)) (by decide),
   (claim_C7 "eval.csv" tblE).2.2 [] rowE []
     ["assignment", "participation"] "final" ["overall"] rfl (by decide)
     (fun r hr => absurd hr (List.not_mem_nil r)) (by decide) (by decide)
     (by decide) (by decide)⟩

/-! ## ProjectInfoFetcher: build-once cache and per-fetch resolution -/

theorem pickLW_valid : ∀ l : List Fillable, l ≠ [] → pickLW l ∈ l := by
  intro l hl
  cases l with
  | nil => exact absurd rfl hl
  | cons f t => exact List.mem_cons_self _ _

theorem piSample_eq (pickL : List Fillable → Fillable)
    (cache : List (String × PIVal))
    (h : ∀ k l, (k, PIVal.seq l) ∈ cache → l ≠ []) :
    piSample pickL cache = .ok (cache.map (fun p =>
      (p.1, match p.2 with
            | .scalar f => f
            | .seq l => pickL l))) := by
  induction cache with
  | nil => rfl
  | cons kv rest ih =>
    obtain ⟨k, v⟩ := kv
    have hrest := ih (fun k' l' hm => h k' l' (List.mem_cons_of_mem _ hm))
    cases v with
    | scalar f =>
      simp only [piSample, piResolveVal, hrest, List.map_cons]
    | seq l =>
      have hl : l ≠ [] := h k l (List.mem_cons_self _ _)
      cases l with
      | nil => exact absurd rfl hl
      | cons f0 l0 =>
        simp only [piSample, piResolveVal, hrest, List.map_cons]

theorem piFetch_cached (fs : String → Option String)
    (pickL : List Fillable → Fillable) (pp : PIPaths)
    (cache : List (String × PIVal)) (v : Bool) (hne : cache ≠ []) :
    piFetch fs pickL pp cache v =
      match piSample pickL cache with
      | .error e => .error e
      | .ok out => .ok (out, cache, []) := by
  rw [piFetch, if_neg (by simp [List.length_eq_zero, hne])]

theorem piSetCache_eq (fs : String → Option String) (pp : PIPaths)
    (v : Bool) (d s dt pn : String) (hd : fs pp.description = some d)
    (hs : fs pp.signature = some s) (hdt : fs pp.date = some dt)
    (hpn : fs pp.programName = some pn) :
    piSetCache fs pp v = .ok (piBuild d s dt pn v,
      [pp.description, pp.signature, pp.date, pp.programName]) := by
  simp only [piSetCache, hd, hs, hdt, hpn]

theorem piBuild_ne_nil (d s dt pn : String) (v : Bool) :
    piBuild d s dt pn v ≠ [] := by
  cases v <;> simp [piBuild]

theorem piBuild_seq_nonempty (d s dt pn : String) (v : Bool)
    (hdt : nonemptySegmentsNL dt ≠ []) :
    ∀ k l, (k, PIVal.seq l) ∈ piBuild d s dt pn v → l ≠ [] := by
  intro k l hm
  cases v with
  | false =>
    simp only [piBuild, Bool.false_eq_true, if_false, List.mem_cons,
      List.mem_singleton, Prod.mk.injEq] at hm
    rcases hm with ⟨_, h⟩ | ⟨_, h⟩ | ⟨_, h⟩ | ⟨_, h⟩ | h
    · exact PIVal.noConfusion h
    · exact PIVal.noConfusion h
    · have hl : l = (nonemptySegmentsNL dt).map Fillable.parsedSentence :=
        PIVal.seq.inj h
      rw [hl]
      intro h0
      exact hdt (List.map_eq_nil_iff.1 h0)
    · exact PIVal.noConfusion h
    · cases h
  | true =>
    simp only [piBuild, if_true, List.mem_cons, List.mem_singleton,
      Prod.mk.injEq] at hm
    rcases hm with ⟨_, h⟩ | ⟨_, h⟩ | ⟨_, h⟩ | ⟨_, h⟩ | h
    · exact PIVal.noConfusion h
    · exact PIVal.noConfusion h
    · have hl : l = (nonemptySegmentsNL dt).map Fillable.atom :=
        PIVal.seq.inj h
      rw [hl]
      intro h0
      exact hdt (List.map_eq_nil_iff.1 h0)
    · exact PIVal.noConfusion h
    · cases h

theorem piFetchIter_cached (fs : String → Option String)
    (pickL : List Fillable → Fillable) (pp : PIPaths)
    (flags : List Bool) :
    ∀ cache : List (String × PIVal), cache ≠ [] →
    (∀ k l, (k, PIVal.seq l) ∈ cache → l ≠ []) →
    piFetchIter fs pickL pp flags cache = .ok (cache, []) := by
  induction flags with
  | nil => intro cache _ _; rfl
  | cons v flags ih =>
    intro cache hne hseq
    simp only [piFetchIter, piFetch_cached fs pickL pp cache v hne,
      piSample_eq pickL cache hseq, ih cache hne hseq, List.nil_append]

/-- C8: fetch builds the cache only when it is empty.  Across any
non-empty sequence of fetch calls from a fresh fetcher, the four
metadata files are read exactly once in total and the cache stays the
one built with the FIRST call's verbatim flag; a fetch on a non-empty
cache reads nothing and leaves the cache untouched; and every fetch
resolves each sequence-valued cached entry to the random choice over
that sequence (a member of it) while scalar entries pass through
unchanged. -/
theorem claim_C8 (fs : String → Option String)
    (pickL : List Fillable → Fillable) (pp : PIPaths) (d s dt pn : String)
    (hpickL : ∀ l : List Fillable, l ≠ [] → pickL l ∈ l)
    (hd : fs pp.description = some d) (hs : fs pp.signature = some s)
    (hdt : fs pp.date = some dt) (hpn : fs pp.programName = some pn)
    (hdates : nonemptySegmentsNL dt ≠ []) :
    (∀ v0 flags, piFetchIter fs pickL pp (v0 :: flags) [] =
      .ok (piBuild d s dt pn v0,
        [pp.description, pp.signature, pp.date, pp.programName]))
    ∧ (∀ cache : List (String × PIVal), cache ≠ [] → ∀ v,
        piFetch fs pickL pp cache v =
          match piSample pickL cache with
          | .error e => .error e
          | .ok out => .ok (out, cache, []))
    ∧ (∀ cache : List (String × PIVal),
        (∀ k l, (k, PIVal.seq l) ∈ cache → l ≠ []) →
        piSample pickL cache = .ok (cache.map (fun p =>
          (p.1, match p.2 with
                | .scalar f => f
                | .seq l => pickL l))))
    ∧ (∀ v k l, (k, PIVal.seq l) ∈ piBuild d s dt pn v → pickL l ∈ l) := by
  refine ⟨?_, ?_, piSample_eq pickL, ?_⟩
  · intro v0 flags
    have hset := piSetCache_eq fs pp v0 d s dt pn hd hs hdt hpn
    have hseq := piBuild_seq_nonempty d s dt pn v0 hdates
    have hsamp := piSample_eq pickL (piBuild d s dt pn v0) hseq
    have hbuild : piFetch fs pickL pp [] v0 =
        .ok ((piBuild d s dt pn v0).map (fun p =>
          (p.1, match p.2 with
                | PIVal.scalar f => f
                | PIVal.seq l => pickL l)), piBuild d s dt pn v0,
          [pp.description, pp.signature, pp.date, pp.programName]) := by
      simp [piFetch, hset, hsamp]
    simp only [piFetchIter, hbuild,
      piFetchIter_cached fs pickL pp flags (piBuild d s dt pn v0)
        (piBuild_ne_nil d s dt pn v0) hseq, List.append_nil]
  · intro cache hne v
    exact piFetch_cached fs pickL pp cache v hne
  · intro v k l hm
    exact hpickL l (piBuild_seq_nonempty d s dt pn v hdates k l hm)

theorem claim_C8_witness :
    (∀ v0 flags, piFetchIter fsPI pickLW ppPI (v0 :: flags) [] =
      .ok (piBuild "desc" "sig" "d1\nd2" "prog" v0,
        [ppPI.description, ppPI.signature, ppPI.date, ppPI.programName]))
    ∧ (∀ cache : List (String × PIVal), cache ≠ [] → ∀ v,
        piFetch fsPI pickLW ppPI cache v =
          match piSample pickLW cache with
          | .error e => .error e
          | .ok out => .ok (out, cache, []))
    ∧ (∀ cache : List (String × PIVal),
        (∀ k l, (k, PIVal.seq l) ∈ cache → l ≠ []) →
        piSample pickLW cache = .ok (cache.map (fun p =>
          (p.1, match p.2 with
                | .scalar f => f
                | .seq l => pickLW l))))
    ∧ (∀ v k l, (k, PIVal.seq l) ∈ piBuild "desc" "sig" "d1\nd2" "prog" v →
        pickLW l ∈ l) :=
  claim_C8 fsPI pickLW ppPI "desc" "sig" "d1\nd2" "prog" pickLW_valid
    rfl rfl rfl rfl (by decide)
